import Mathlib

/-!
Verification development for the trajectory generator (`generator.py`) of the
pydreamer repository.  The program parts relevant to the claims are shallowly
embedded below: floating-point numbers are modelled by exact rationals,
NumPy arrays of map cells by a width/height plus a cell function, and the
stateful search / buffering loops by explicit state passing with fuel where
the source uses `while` loops.  The trigonometric primitives `np.cos`,
`np.sin` and `np.arctan2` (transcendental, hence not representable exactly
on rationals) are passed as an explicit `Trig` parameter; concrete
instantiations used in witnesses only evaluate them on multiples of 90
degrees, where the supplied rational values are the exact real ones.
-/

namespace PyDreamer

/-- Round half to even on rationals, the rounding performed by Python's
builtin `round` (and `numpy.round`) on the scaled key coordinates. -/
def rndHE (q : ℚ) : ℤ :=
  if q - (⌊q⌋ : ℚ) < 1/2 then ⌊q⌋
  else if (1/2 : ℚ) < q - (⌊q⌋ : ℚ) then ⌊q⌋ + 1
  else if ⌊q⌋ % 2 = 0 then ⌊q⌋ else ⌊q⌋ + 1

/-- Python's `int()` conversion applied to a float: truncation toward zero. -/
def pytrunc (q : ℚ) : ℤ := if 0 ≤ q then ⌊q⌋ else ⌈q⌉

/-- One coordinate of the planner's discretization key:
`round(x * KPREC) / KPREC` with `KPREC = 5` (lines 451, 465, 496 of
generator.py). -/
def keyCoord (q : ℚ) : ℚ := (rndHE (q * 5) : ℚ) / 5

/-- A continuous agent pose `(x, y, heading in degrees)`. -/
abbrev Pose := ℚ × ℚ × ℚ

/-- The discretization key of a pose, used for visited-set membership. -/
def poseKey (p : Pose) : Pose := (keyCoord p.1, keyCoord p.2.1, keyCoord p.2.2)

/-- The trigonometric primitives consumed by the planner and the policy.
`cosd d` stands for `np.cos(d / 180 * np.pi)`, `sind d` for
`np.sin(d / 180 * np.pi)` and `atan2d dy dx` for
`np.arctan2(dy, dx) / np.pi * 180`. -/
structure Trig where
  cosd : ℚ → ℚ
  sind : ℚ → ℚ
  atan2d : ℚ → ℚ → ℚ

/-- The map consumed by the planner: a 2D grid of cell-type codes with the
bounds of the underlying NumPy array (`map.shape`). -/
structure GridMap where
  width : ℕ
  height : ℕ
  cell : ℕ → ℕ → ℕ

/-- Cell code of wall cells (`WALL = 2`, line 20 of generator.py). -/
def WALL : ℕ := 2

/-- Collision radius used by the forward probe (`RADIUS = 0.2`, line 452). -/
def RADIUS : ℚ := 1/5

/-- One corner probe of the forward collision check (line 492): the probe
point falls outside the map bounds or lands on a wall cell. -/
def cornerBad (m : GridMap) (x2 y2 : ℚ) : Bool :=
  decide (x2 < 0) || decide (y2 < 0) ||
    decide ((m.width : ℚ) ≤ x2) || decide ((m.height : ℚ) ≤ y2) ||
    decide (m.cell (pytrunc x2).toNat (pytrunc y2).toNat = WALL)

/-- The four corner probe points, offset by `RADIUS` from the destination
`(x1, y1)` (line 491). -/
def corners (x1 y1 : ℚ) : List (ℚ × ℚ) :=
  [(x1 - RADIUS, y1 - RADIUS), (x1 + RADIUS, y1 - RADIUS),
   (x1 - RADIUS, y1 + RADIUS), (x1 + RADIUS, y1 + RADIUS)]

/-- The forward destination is rejected iff some corner probe is bad; the
source's `for ... break` loop has no effect other than reverting the
destination the first time a bad corner is found. -/
def anyCornerBad (m : GridMap) (x1 y1 : ℚ) : Bool :=
  (corners x1 y1).any fun c => cornerBad m c.1 c.2

/-- Turn-left heading update (lines 479-482): subtract the turn size and
wrap into range by adding 360 when the result is below -180. -/
def turnLeftHeading (d ts : ℚ) : ℚ :=
  if d - ts < -180 then d - ts + 360 else d - ts

/-- Turn-right heading update (lines 483-486): add the turn size and wrap
into range by subtracting 360 when the result is above 180. -/
def turnRightHeading (d ts : ℚ) : ℚ :=
  if 180 < d + ts then d + ts - 360 else d + ts

/-- The action-conditioned transition of the planner (lines 477-494):
action 0 turns left, action 1 turns right, action 2 moves forward by
`ss` along the current heading unless a corner probe of the destination
is bad, in which case the pose is left unchanged. -/
def stepPose (T : Trig) (m : GridMap) (ss ts : ℚ) (p : Pose) (a : ℕ) : Pose :=
  if a = 0 then (p.1, p.2.1, turnLeftHeading p.2.2 ts)
  else if a = 1 then (p.1, p.2.1, turnRightHeading p.2.2 ts)
  else if a = 2 then
    let x1 := p.1 + ss * T.cosd p.2.2
    let y1 := p.2.1 + ss * T.sind p.2.2
    if anyCornerBad m x1 y1 then p else (x1, y1, p.2.2)
  else p

/-- The goal test (line 474): the integer-truncated position equals the
goal cell. -/
def atGoal (p : Pose) (g : ℤ × ℤ) : Bool :=
  decide (pytrunc p.1 = g.1) && decide (pytrunc p.2.1 = g.2)

/-- Applying an action sequence from a start pose (left fold of the
transition function), the exact dynamics of the defined discretization. -/
def applyActions (T : Trig) (m : GridMap) (ss ts : ℚ) (start : Pose)
    (seq : List ℕ) : Pose :=
  seq.foldl (stepPose T m ss ts) start

/-- The mutable state of the breadth-first search in find_shortest:
the queue of poses (only ever appended to), the dequeue index `que_ix`,
the visited keys in insertion order, and the parent records
`(child, parent, action)` in insertion order. -/
structure SearchState where
  que : List Pose
  queIx : ℕ
  visited : List Pose
  par : List (Pose × Pose × ℕ)
deriving DecidableEq

/-- Failure modes of the embedded search: `runaway` models the
`assert len(visited) < 100000` guard firing; `noFuel` is an artifact of
the fuel-based embedding of the `while` loop and is proved unreachable. -/
inductive PlanErr where
  | runaway
  | noFuel
deriving DecidableEq

/-- The visited-set cap of the runaway guard (line 502). -/
def CAP : ℕ := 100000

/-- Expanding one dequeued pose `p`: for each action, compute the successor,
and enqueue it (recording parent and action, marking the key visited)
unless its key was already visited; after each insertion the runaway
guard checks the visited-set size (lines 477-502). -/
def expandActions (T : Trig) (m : GridMap) (ss ts : ℚ) (p : Pose) :
    List ℕ → SearchState → Except PlanErr SearchState
  | [], st => .ok st
  | a :: rest, st =>
    let p1 := stepPose T m ss ts p a
    if poseKey p1 ∈ st.visited then expandActions T m ss ts p rest st
    else
      let st1 : SearchState :=
        { que := st.que ++ [p1], queIx := st.queIx,
          visited := st.visited ++ [poseKey p1], par := st.par ++ [(p1, p, a)] }
      if st1.visited.length < CAP then expandActions T m ss ts p rest st1
      else .error .runaway

/-- Possible outcomes of the search loop. -/
inductive BfsOut where
  | found : Pose → SearchState → BfsOut
  | noGoal : SearchState → BfsOut
  | fail : PlanErr → BfsOut
deriving DecidableEq

/-- The `while que_ix < len(que)` loop of find_shortest (lines 470-502),
with explicit fuel.  Dequeue the pose at `que_ix`; if it satisfies the
goal test, stop with it; otherwise expand its three successors and
continue.  (The source increments `que_ix` before expanding; since the
expansion never reads `que_ix`, incrementing it after expanding yields
the identical state.) -/
def bfsLoop (T : Trig) (m : GridMap) (ss ts : ℚ) (g : ℤ × ℤ) :
    ℕ → SearchState → BfsOut
  | 0, _ => .fail .noFuel
  | fuel + 1, st =>
    match st.que.get? st.queIx with
    | none => .noGoal st
    | some p =>
      if atGoal p g then .found p st
      else
        match expandActions T m ss ts p [0, 1, 2] st with
        | .error e => .fail e
        | .ok st1 => bfsLoop T m ss ts g fuel { st1 with queIx := st1.queIx + 1 }

/-- Lookup of `parent[p], parent_action[p]` (the `p in parent_action`
test): the first record whose child is `p`. -/
def lookupChild (par : List (Pose × Pose × ℕ)) (p : Pose) : Option (Pose × ℕ) :=
  match par.find? fun e => decide (e.1 = p) with
  | none => none
  | some e => some e.2

/-- The path-reconstruction loop of find_shortest (lines 504-513), walking
parent pointers from the goal state while a parent record exists; the
fuel is an embedding artifact, chosen large enough in `find_shortest`
that it never runs out (the parent chain is acyclic). -/
def backtrack (par : List (Pose × Pose × ℕ)) : ℕ → Pose → List Pose × List ℕ
  | 0, _ => ([], [])
  | fuel + 1, p =>
    match lookupChild par p with
    | none => ([], [])
    | some qa =>
      let r := backtrack par fuel qa.1
      (p :: r.1, qa.2 :: r.2)

/-- Fuel for the search loop: one unit per dequeue.  Each dequeue consumes
one queue entry and every enqueue inserts a fresh visited key, so given the
runaway guard at `CAP` the loop performs at most `2 * CAP` dequeues;
`FUEL` exceeds that bound. -/
def FUEL : ℕ := 200001

/-- Shallow embedding of `find_shortest(map, start, goal, step_size,
turn_size)` (lines 449-517): run the BFS from the start pose, then
reconstruct the action and pose sequences in chronological order, and
return them together with the number of visited keys. -/
def find_shortest (T : Trig) (m : GridMap) (start : Pose) (g : ℤ × ℤ)
    (ss ts : ℚ) : Except PlanErr (List ℕ × List Pose × ℕ) :=
  let st0 : SearchState :=
    { que := [start], queIx := 0, visited := [poseKey start], par := [] }
  match bfsLoop T m ss ts g FUEL st0 with
  | .found p st =>
    let r := backtrack st.par (st.par.length + 1) p
    .ok (r.2.reverse, r.1.reverse, st.visited.length)
  | .noGoal st => .ok ([], [], st.visited.length)
  | .fail e => .error e

/-- Decidable equality of search results, used to evaluate the embedding on
concrete instances. -/
instance {ε α : Type} [DecidableEq ε] [DecidableEq α] : DecidableEq (Except ε α) :=
  fun x y =>
  match x, y with
  | .ok a, .ok b =>
    if h : a = b then isTrue (by rw [h]) else isFalse (by intro hh; cases hh; exact h rfl)
  | .ok _, .error _ => isFalse (by intro h; cases h)
  | .error _, .ok _ => isFalse (by intro h; cases h)
  | .error a, .error b =>
    if h : a = b then isTrue (by rw [h]) else isFalse (by intro hh; cases hh; exact h rfl)

/-- Exact cosine of `d` degrees for `d` a multiple of 90; the value 0
elsewhere is arbitrary.  Every concrete instance below evaluates the trig
functions only on multiples of 90 degrees, where these rational values are
exactly the real `np.cos` values. -/
def cosE (d : ℚ) : ℚ :=
  if (d / 90).den = 1 then
    if (d / 90).num % 4 = 0 then 1
    else if (d / 90).num % 4 = 1 then 0
    else if (d / 90).num % 4 = 2 then -1
    else 0
  else 0

/-- Exact sine of `d` degrees for `d` a multiple of 90 (see `cosE`). -/
def sinE (d : ℚ) : ℚ :=
  if (d / 90).den = 1 then
    if (d / 90).num % 4 = 0 then 0
    else if (d / 90).num % 4 = 1 then 1
    else if (d / 90).num % 4 = 2 then 0
    else -1
  else 0

/-- Exact `np.arctan2(dy, dx) / np.pi * 180` on the four cardinal
directions; the value 0 elsewhere is arbitrary (instances below only pass
cardinal direction vectors). -/
def atan2E (dy dx : ℚ) : ℚ :=
  if dy = 0 ∧ 0 < dx then 0
  else if dx = 0 ∧ 0 < dy then 90
  else if dy = 0 ∧ dx < 0 then 180
  else if dx = 0 ∧ dy < 0 then -90
  else 0

/-- The concrete trig instance used by all concrete planner instances. -/
def trigE : Trig := { cosd := cosE, sind := sinE, atan2d := atan2E }

/-- A fully open (obstacle-free) 2-wide, 1-tall map. -/
def mapOpen21 : GridMap := { width := 2, height := 1, cell := fun _ _ => 0 }

/-- A fully open (obstacle-free) 1-wide, 2-tall map. -/
def mapOpen12 : GridMap := { width := 1, height := 2, cell := fun _ _ => 0 }

/-- A 3x3 map whose center cell is free and every other cell is a wall:
the start pose (1.5, 1.5, _) is surrounded by walls on all four sides. -/
def mapWalled : GridMap :=
  { width := 3, height := 3, cell := fun i j => if i = 1 ∧ j = 1 then 0 else WALL }

/-! ## Claim C4: the discretization key -/

/-- The key-coordinate function described by the spec for claim C4,
following the spec's words: `round(x, P)` with `P = 5` decimal digits,
i.e. rounding to the nearest multiple of `10 ^ (-5)`. -/
def specRound5 (q : ℚ) : ℚ := (rndHE (q * 100000) : ℚ) / 100000

/-! ## Claim C9: the terminal flag of ActionRewardResetWrapper -/

/-- Per-step bookkeeping of `ActionRewardResetWrapper.step` (lines
532-546): increment the episode step counter, then record as `terminal`
the environment's done flag masked to `False` once the step counter has
reached the per-episode cap (`done if self._epstep < self._max_steps else
False`, line 544).  Returns the new counter and the terminal flag. -/
def arrStep (maxSteps : ℕ) (epstep : ℕ) (done : Bool) : ℕ × Bool :=
  (epstep + 1, if epstep + 1 < maxSteps then done else false)

/-- The terminal flags recorded over consecutive wrapper steps starting
from counter value `epstep`, given the environment's done flags. -/
def arrTerminals (maxSteps : ℕ) : ℕ → List Bool → List Bool
  | _, [] => []
  | epstep, done :: rest =>
    (arrStep maxSteps epstep done).2 ::
      arrTerminals maxSteps (arrStep maxSteps epstep done).1 rest

/-- The terminal flags of one episode: the wrapper's reset puts the step
counter to 0 (line 554) and each step of the episode then records one
terminal flag. -/
def arrEpisodeTerminals (maxSteps : ℕ) (dones : List Bool) : List Bool :=
  arrTerminals maxSteps 0 dones

/-! ## Claims C8 and C10: drift handling of MazeDijkstraPolicy -/

/-- The cross-call state of MazeDijkstraPolicy: the current goal cell and
the pose expected at the next call (both nullable). -/
structure PolicyState where
  goal : Option (ℤ × ℤ)
  expectedPos : Option Pose
deriving DecidableEq

/-- One observation consumed by the policy: agent position, agent
direction vector, the map, and the reset flag. -/
structure PolicyObs where
  x : ℚ
  y : ℚ
  dx : ℚ
  dy : ℚ
  map : GridMap
  reset : Bool

/-- Model of scalar `np.isclose(a, b, 1e-3)` (line 415): the third
positional argument of `np.isclose` is the relative tolerance `rtol`, the
absolute tolerance keeps its default `1e-8`, and closeness means
`|a - b| <= atol + rtol * |b|`. -/
def npIsClose (a b : ℚ) : Bool :=
  decide (|a - b| ≤ 1 / 100000000 + (1 / 1000) * |b|)

/-- The drift test of `MazeDijkstraPolicy.__call__` (lines 414-415): an
expected pose was recorded and its first two components
(`self._expected_pos[:2]`) are not both close to the observed position. -/
def driftDetected (ep : Option Pose) (x y : ℚ) : Bool :=
  match ep with
  | none => false
  | some e => !(npIsClose e.1 x && npIsClose e.2.1 y)

/-- Failure modes of the embedded policy call: a propagated planner
assertion, or exhaustion of the supplied goal samples (an artifact of
modelling the unbounded rejection sampler `_generate_goal` by the list of
its successive return values). -/
inductive PolicyErr where
  | plan : PlanErr → PolicyErr
  | oracleOut : PolicyErr
deriving DecidableEq

/-- One call of `_generate_goal` (lines 440-446), modelled by consuming
the next of the supplied goal samples. -/
def takeGoal : List (ℤ × ℤ) → Except PolicyErr ((ℤ × ℤ) × List (ℤ × ℤ))
  | [] => .error .oracleOut
  | g :: gs => .ok (g, gs)

/-- The `while True` replanning loop of `MazeDijkstraPolicy.__call__`
(lines 419-438): plan a path to the current goal; on a non-empty plan
either return the random action `ra` (when the epsilon draw `b` is true),
clearing the expected pose, or return the first planned action, recording
the first path pose as the expected pose; on an empty plan resample the
goal and retry.  (The case of a non-empty action list with an empty path
list cannot arise from `find_shortest`, whose two lists always have equal
length; it is mapped to the artifact error.) -/
def planAttempt (T : Trig) (ss ts : ℚ) (mp : GridMap) (x y d : ℚ)
    (b : Bool) (ra : ℕ) (g : ℤ × ℤ) :
    Except PolicyErr (ℕ × PolicyState) ⊕ Unit :=
  match find_shortest T mp (x, y, d) g ss ts with
  | .error e => .inl (.error (.plan e))
  | .ok r =>
    match r.1, r.2.1 with
    | a :: _, p :: _ =>
      if b then .inl (.ok (ra, { goal := some g, expectedPos := none }))
      else .inl (.ok (a, { goal := some g, expectedPos := some p }))
    | [], _ => .inr ()
    | _ :: _, [] => .inl (.error .oracleOut)

/-- The replanning loop as iteration of `planAttempt` over the successive
goals: the first attempted goal is the current one, each empty plan
resamples. -/
def planLoopAux (T : Trig) (ss ts : ℚ) (mp : GridMap) (x y d : ℚ)
    (b : Bool) (ra : ℕ) : List (ℤ × ℤ) → Except PolicyErr (ℕ × PolicyState)
  | [] => .error .oracleOut
  | g :: gs =>
    match planAttempt T ss ts mp x y d b ra g with
    | .inl r => r
    | .inr _ => planLoopAux T ss ts mp x y d b ra gs

def planLoop (T : Trig) (ss ts : ℚ) (mp : GridMap) (x y d : ℚ)
    (b : Bool) (ra : ℕ) (g : ℤ × ℤ) (gs : List (ℤ × ℤ)) :
    Except PolicyErr (ℕ × PolicyState) :=
  planLoopAux T ss ts mp x y d b ra (g :: gs)

/-- Shallow embedding of `MazeDijkstraPolicy.__call__` (lines 398-438):
compute the observed heading, clear goal and expected pose on reset,
sample a goal if none is set, resample the goal if drift is detected, and
enter the replanning loop.  `gs0` supplies the successive samples of
`_generate_goal`; `b` is the outcome of the `np.random.rand() < epsilon`
draw and `ra` the random action used when `b` is true. -/
def policyCall (T : Trig) (ss ts : ℚ) (st : PolicyState) (obs : PolicyObs)
    (gs0 : List (ℤ × ℤ)) (b : Bool) (ra : ℕ) :
    Except PolicyErr (ℕ × PolicyState) :=
  let d := T.atan2d obs.dy obs.dx
  let st1 := if obs.reset then ({ goal := none, expectedPos := none } : PolicyState) else st
  match (match st1.goal with
         | some g => Except.ok (g, gs0)
         | none => takeGoal gs0) with
  | .error e => .error e
  | .ok (g1, gs1) =>
    if driftDetected st1.expectedPos obs.x obs.y then
      match takeGoal gs1 with
      | .error e => .error e
      | .ok (g2, gs2) => planLoop T ss ts obs.map obs.x obs.y d b ra g2 gs2
    else planLoop T ss ts obs.map obs.x obs.y d b ra g1 gs1

/-! ## Claims C2 and C3: episode buffer, shard writer, resumption scan

Filenames are modelled as lists of characters; the decimal formatting of
Python f-strings and the token parsing of `count_steps` are embedded
directly. -/

/-- Decimal digits, least significant first, with fuel (the fuel makes
the definition structurally recursive; `natDigitsRev` supplies enough). -/
def natDigitsRevAux (fuel : ℕ) (n : ℕ) : List ℕ :=
  match fuel with
  | 0 => []
  | fuel + 1 => if n < 10 then [n] else n % 10 :: natDigitsRevAux fuel (n / 10)

/-- Decimal digits of `n`, least significant first. -/
def natDigitsRev (n : ℕ) : List ℕ := natDigitsRevAux (n + 1) n

/-- The character of a decimal digit. -/
def digitChar : ℕ → Char
  | 0 => '0' | 1 => '1' | 2 => '2' | 3 => '3' | 4 => '4'
  | 5 => '5' | 6 => '6' | 7 => '7' | 8 => '8' | _ => '9'

/-- Decimal representation of `n` (Python `str(n)` / `f-string` digits). -/
def natRepr (n : ℕ) : List Char := (natDigitsRev n).reverse.map digitChar

/-- Python format `f'{n:0w}'`: `n` zero-padded on the left to width `w`
(longer representations are kept in full). -/
def padNum (w : ℕ) (n : ℕ) : List Char :=
  List.replicate (w - (natRepr n).length) '0' ++ natRepr n

/-- Python `str.isnumeric()` on the ASCII strings at hand: nonempty and
all digits. -/
def pyIsNumeric (s : List Char) : Bool := !s.isEmpty && s.all Char.isDigit

/-- Python `int()` on a digit string. -/
def parseNat (s : List Char) : ℕ := s.foldl (fun acc c => 10 * acc + (c.toNat - 48)) 0

/-- Python `str.split(sep)` for a one-character separator. -/
def splitOnChar (c : Char) : List Char → List (List Char)
  | [] => [[]]
  | x :: xs =>
    if x = c then [] :: splitOnChar c xs
    else
      match splitOnChar c xs with
      | [] => [[x]]
      | t :: ts => (x :: t) :: ts

/-- Python `str.replace('ep', '')`: delete every (left-to-right,
non-overlapping) occurrence of the two-character pattern. -/
def replaceEp : List Char → List Char
  | [] => []
  | [c] => [c]
  | c1 :: c2 :: rest =>
    if c1 = 'e' ∧ c2 = 'p' then replaceEp rest
    else c1 :: replaceEp (c2 :: rest)

/-- The multi-episode shard filename
`f's{seed}-ep{first:06}_{last:06}-{steps:04}.npz'` (line 219). -/
def shardNameMulti (seed first last steps : ℕ) : List Char :=
  's' :: natRepr seed ++ '-' :: 'e' :: 'p' :: padNum 6 first ++
    '_' :: padNum 6 last ++ '-' :: padNum 4 steps ++ ['.', 'n', 'p', 'z']

/-- The single-episode shard filename
`f's{seed}-ep{last:06}-{steps:04}.npz'` (line 221). -/
def shardNameSingle (seed last steps : ℕ) : List Char :=
  's' :: natRepr seed ++ '-' :: 'e' :: 'p' :: padNum 6 last ++
    '-' :: padNum 4 steps ++ ['.', 'n', 'p', 'z']

/-- One flushed shard: its episode-index range, step count, and filename. -/
structure Flush where
  firstEp : ℕ
  lastEp : ℕ
  steps : ℕ
  name : List Char
deriving DecidableEq

/-- The buffer-related state of the generator loop: the episode counter
and the buffered episodes, each as `(episode index, number of recorded
observations)`.  An episode with `len` recorded observations (the field
`len(d['reset'])`) contributes `len - 1` steps, the first observation
being the reset. -/
structure GenState where
  episodes : ℕ
  datas : List (ℕ × ℕ)
deriving DecidableEq

/-- The accumulated step count of the buffered episodes
(`datas_steps = sum(len(d['reset']) - 1 for d in datas)`, line 196). -/
def bufferedSteps (datas : List (ℕ × ℕ)) : ℕ := (datas.map fun d => d.2 - 1).sum

/-- The save-to-npz block of the generator loop (lines 142 and 194-223)
run once after an episode of `epLen` recorded observations completes:
increment the episode counter, append the completed episode to the
buffer, and if the accumulated step count has reached the threshold
(`steps_per_npz`), emit a shard covering exactly the buffered episodes
and clear the buffer. -/
def recordEpisode (threshold seed : ℕ) (st : GenState) (epLen : ℕ) :
    GenState × Option Flush :=
  let episodes := st.episodes + 1
  let datas := st.datas ++ [(st.episodes, epLen)]
  let datasEpisodes := datas.length
  let datasSteps := bufferedSteps datas
  if threshold ≤ datasSteps then
    ({ episodes := episodes, datas := [] },
     some { firstEp := episodes - datasEpisodes, lastEp := episodes - 1,
            steps := datasSteps,
            name :=
              if 1 < datasEpisodes then
                shardNameMulti seed (episodes - datasEpisodes) (episodes - 1) datasSteps
              else shardNameSingle seed (episodes - 1) datasSteps })
  else ({ episodes := episodes, datas := datas }, none)

/-- The resumption counters of `count_steps`. -/
structure Counters where
  steps : ℕ
  episodes : ℕ
deriving DecidableEq

/-- Processing of one filename inside `count_steps` (lines 232-239):
take the part before the extension, split on `-`, add the last token to
the step counter when it is numeric, then strip `ep` from the
second-to-last token, take the part after `_`, and raise the episode
counter to that index plus one when it is numeric.  The error value
models the `IndexError` Python raises on `tokens[-2]` when the split
yields fewer than two tokens. -/
def countFile (st : Counters) (name : List Char) : Except Unit Counters :=
  let base := (splitOnChar '.' name).headD []
  let toks := splitOnChar '-' base
  match toks.getLast? with
  | none => .error ()
  | some sstep =>
    let st1 : Counters :=
      if pyIsNumeric sstep then { st with steps := st.steps + parseNat sstep } else st
    match toks.reverse.get? 1 with
    | none => .error ()
    | some t2 =>
      let sepisode := (splitOnChar '_' (replaceEp t2)).getLastD []
      if pyIsNumeric sepisode then
        .ok { st1 with episodes := max st1.episodes (parseNat sepisode + 1) }
      else .ok st1

/-- Lexicographic comparison of filenames (Python string `<=` on the
ASCII strings at hand). -/
def lexLeChars : List Char → List Char → Bool
  | [], _ => true
  | _ :: _, [] => false
  | a :: as1, b :: bs1 => if a < b then true else if b < a then false else lexLeChars as1 bs1

/-- Stable insertion of a name into a sorted list of names. -/
def insertName (x : List Char) : List (List Char) → List (List Char)
  | [] => [x]
  | y :: ys => if lexLeChars x y then x :: y :: ys else y :: insertName x ys

/-- Stable sort of the directory listing, modelling Python's `sorted`
(which is a stable sort by the same lexicographic order; any stable sort
produces the identical list). -/
def sortNames (files : List (List Char)) : List (List Char) :=
  files.foldr insertName []

/-- Shallow embedding of `count_steps(artifact_dir)` (lines 228-242): sort
the directory listing (`sorted(artifact_dir.glob(...))`), then accumulate
the step and episode counters over every file. -/
def count_steps (files : List (List Char)) : Except Unit Counters :=
  (sortNames files).foldlM countFile { steps := 0, episodes := 0 }

/-- A filename whose processing by `countFile` is, for every incoming
state, the pure counter update adding `s` steps and raising the episode
counter to at least `e`. -/
def CounterUpdate (name : List Char) (s e : ℕ) : Prop :=
  ∀ st : Counters,
    countFile st name = .ok { steps := st.steps + s, episodes := max st.episodes e }

/-- The filename the writer emits for a shard with episode range
`[r.1, r.2.1]` and step count `r.2.2`: the single-episode form exactly
when the range is trivial. -/
def writerName (seed : ℕ) (r : ℕ × ℕ × ℕ) : List Char :=
  if r.1 = r.2.1 then shardNameSingle seed r.2.1 r.2.2
  else shardNameMulti seed r.1 r.2.1 r.2.2

/-! ## Claim C1: reachability, distance, and BFS optimality -/

/-- An action sequence over the three discrete actions. -/
def GoodSeq (seq : List ℕ) : Prop := ∀ a ∈ seq, a < 3

/-- The sequence drives the start pose into the goal cell under the exact
dynamics of the discretization. -/
def ReachesGoal (T : Trig) (m : GridMap) (ss ts : ℚ) (start : Pose)
    (g : ℤ × ℤ) (seq : List ℕ) : Prop :=
  GoodSeq seq ∧ atGoal (applyActions T m ss ts start seq) g = true

/-- The pose is reachable from the start pose by some action sequence. -/
def ReachablePose (T : Trig) (m : GridMap) (ss ts : ℚ) (start p : Pose) : Prop :=
  ∃ seq, GoodSeq seq ∧ applyActions T m ss ts start seq = p

/-- The pose is reachable by a sequence of exactly `n` actions. -/
def ReachInN (T : Trig) (m : GridMap) (ss ts : ℚ) (start p : Pose) (n : ℕ) : Prop :=
  ∃ seq, GoodSeq seq ∧ seq.length = n ∧ applyActions T m ss ts start seq = p

/-- Specification-only: the graph distance from the start pose to `p`
(the least action count reaching `p`); used in invariants and the
optimality statement, never executed. -/
noncomputable def dist (T : Trig) (m : GridMap) (ss ts : ℚ) (start p : Pose) : ℕ :=
  sInf {n | ReachInN T m ss ts start p n}

/-- The discretization key separates the reachable poses: two reachable
poses with the same key are equal.  This is the hypothesis under which
the key-deduplicated search coincides with plain breadth-first search on
poses. -/
def KeyInj (T : Trig) (m : GridMap) (ss ts : ℚ) (start : Pose) : Prop :=
  ∀ p q : Pose, ReachablePose T m ss ts start p →
    ReachablePose T m ss ts start q → poseKey p = poseKey q → p = q

/-- The breadth-first-search invariant of find_shortest, for a fixed
problem instance.  The queue holds reachable poses in nondecreasing
distance order, the visited list is exactly the key image of the queue
(duplicate-free), parent records link each enqueued pose (all but the
start, which heads the queue) to an earlier pose one distance-step
closer, every dequeued pose has been fully expanded and failed the goal
test, the distance of each pose is at most its queue index, and every
queue entry is within one step of the current front. -/
structure Inv (T : Trig) (m : GridMap) (ss ts : ℚ) (start : Pose) (g : ℤ × ℤ)
    (st : SearchState) : Prop where
  hix : st.queIx ≤ st.que.length
  hsync : st.visited = st.que.map poseKey
  hnd : (st.que.map poseKey).Nodup
  hreach : ∀ p ∈ st.que, ReachablePose T m ss ts start p
  hpar1 : st.par.map (fun e => e.1) = st.que.drop 1
  hpar2 : ∀ e ∈ st.par, e.2.2 < 3 ∧ e.1 = stepPose T m ss ts e.2.1 e.2.2 ∧
    e.2.1 ∈ st.que ∧ dist T m ss ts start e.1 = dist T m ss ts start e.2.1 + 1
  hsorted : ∀ (i j : ℕ) (hi : i < st.que.length) (hj : j < st.que.length),
    i ≤ j → dist T m ss ts start (st.que.get ⟨i, hi⟩) ≤
      dist T m ss ts start (st.que.get ⟨j, hj⟩)
  hbound : ∀ z ∈ st.que, ∀ pf, st.que.get? st.queIx = some pf →
    dist T m ss ts start z ≤ dist T m ss ts start pf + 1
  hexp : ∀ q ∈ st.que.take st.queIx, ∀ a, a < 3 →
    poseKey (stepPose T m ss ts q a) ∈ st.visited
  hngoal : ∀ q ∈ st.que.take st.queIx, atGoal q g = false
  hdix : ∀ (i : ℕ) (hi : i < st.que.length),
    dist T m ss ts start (st.que.get ⟨i, hi⟩) ≤ i
  hhead : st.que.get? 0 = some start

/-- The ten poses reachable on the 2-by-1 open map from (1/2, 1/2, 0) with
step size 1 and turn size 90. -/
def S21 : List Pose :=
  [(1/2, 1/2, 0), (1/2, 1/2, 90), (1/2, 1/2, 180), (1/2, 1/2, -90),
   (1/2, 1/2, -180),
   (3/2, 1/2, 0), (3/2, 1/2, 90), (3/2, 1/2, 180), (3/2, 1/2, -90),
   (3/2, 1/2, -180)]

/-! ## Theorems -/

/-- Round-half-to-even returns a nearest integer. -/
theorem rndHE_nearest (x : ℚ) (n : ℤ) : |x - (rndHE x : ℚ)| ≤ |x - (n : ℚ)| := by
  have hf : ((⌊x⌋ : ℤ) : ℚ) ≤ x := Int.floor_le x
  have hc : x < (⌊x⌋ : ℚ) + 1 := Int.lt_floor_add_one x
  have hn : (n : ℚ) ≤ (⌊x⌋ : ℚ) ∨ (⌊x⌋ : ℚ) + 1 ≤ (n : ℚ) := by
    rcases Int.le_or_lt n ⌊x⌋ with h | h
    · exact Or.inl (by exact_mod_cast h)
    · refine Or.inr ?_
      have h1 : (⌊x⌋ + 1 : ℤ) ≤ n := h
      exact_mod_cast h1
  have hA : x - (n : ℚ) ≤ |x - (n : ℚ)| := le_abs_self _
  have hB : (n : ℚ) - x ≤ |x - (n : ℚ)| := by rw [abs_sub_comm]; exact le_abs_self _
  unfold rndHE
  split_ifs with h1 h2 h3
  · rw [abs_of_nonneg (by linarith)]
    rcases hn with h | h <;> linarith
  · push_cast
    rw [abs_of_nonpos (by linarith)]
    rcases hn with h | h <;> linarith
  · have hr : x - (⌊x⌋ : ℚ) = 1 / 2 := le_antisymm (not_lt.mp h2) (not_lt.mp h1)
    rw [abs_of_nonneg (by linarith)]
    rcases hn with h | h <;> linarith
  · have hr : x - (⌊x⌋ : ℚ) = 1 / 2 := le_antisymm (not_lt.mp h2) (not_lt.mp h1)
    push_cast
    rw [abs_of_nonpos (by linarith)]
    rcases hn with h | h <;> linarith

/-- The key coordinate is a multiple of `1/5` that is nearest to the input
among all multiples of `1/5`. -/
theorem keyCoord_nearest_fifth (q : ℚ) :
    ∃ m : ℤ, keyCoord q = (m : ℚ) / 5 ∧
      ∀ n : ℤ, |q - (m : ℚ) / 5| ≤ |q - (n : ℚ) / 5| := by
  refine ⟨rndHE (q * 5), rfl, fun n => ?_⟩
  have h := rndHE_nearest (q * 5) n
  have e1 : q - (rndHE (q * 5) : ℚ) / 5 = (q * 5 - (rndHE (q * 5) : ℚ)) / 5 := by ring
  have e2 : q - (n : ℚ) / 5 = (q * 5 - (n : ℚ)) / 5 := by ring
  rw [e1, e2, abs_div, abs_div]
  have h5 : |(5 : ℚ)| = 5 := by norm_num
  rw [h5]
  exact div_le_div_of_nonneg_right h (by norm_num) |>.trans_eq rfl

unseal Rat.add Rat.mul Rat.sub Rat.inv in
/-- Counterexample to claim C4 as stated: the code's key coordinate is
`round(x * 5) / 5` (nearest multiple of 0.2), not `round(x, 5)` (5 decimal
digits); at `x = 0.25` the code yields 0.2 while the spec's formula yields
0.25. -/
theorem C4_counterexample :
    keyCoord (1 / 4) = 1 / 5 ∧ specRound5 (1 / 4) = 1 / 4 ∧
    ¬ ∀ p : Pose, poseKey p = (specRound5 p.1, specRound5 p.2.1, specRound5 p.2.2) := by
  refine ⟨by decide, by decide, fun h => absurd (h (1 / 4, 0, 0)) (by decide)⟩

/-- Amended claim C4: each key coordinate is the input rounded to the
nearest multiple of `1/5` (`KPREC = 5` is a scale factor, not a decimal
digit count), and a successor pose whose key was already visited is
treated as an already-seen search state (not enqueued again). -/
theorem C4_amended :
    (∀ q : ℚ, ∃ m : ℤ, keyCoord q = (m : ℚ) / 5 ∧
        ∀ n : ℤ, |q - (m : ℚ) / 5| ≤ |q - (n : ℚ) / 5|) ∧
    ∀ (T : Trig) (mp : GridMap) (ss ts : ℚ) (p : Pose) (a : ℕ) (st : SearchState),
      poseKey (stepPose T mp ss ts p a) ∈ st.visited →
      expandActions T mp ss ts p [a] st = .ok st := by
  refine ⟨keyCoord_nearest_fifth, fun T mp ss ts p a st h => ?_⟩
  simp [expandActions, h]

unseal Rat.add Rat.mul Rat.sub Rat.inv in
/-- Witness for the deduplication clause of the amended C4: a turn-left
successor whose key is already in the visited list is not enqueued. -/
theorem C4_witness :
    expandActions trigE mapOpen21 1 90 (1 / 2, 1 / 2, 0) [0]
      { que := [(1 / 2, 1 / 2, 0)], queIx := 0,
        visited := [(2 / 5, 2 / 5, -90)], par := [] } =
    .ok { que := [(1 / 2, 1 / 2, 0)], queIx := 0,
          visited := [(2 / 5, 2 / 5, -90)], par := [] } :=
  C4_amended.2 trigE mapOpen21 1 90 (1 / 2, 1 / 2, 0) 0 _ (by decide)

/-! ## Claim C5: heading normalization under turns -/

unseal Rat.add Rat.mul Rat.sub Rat.inv in
/-- Counterexample to claim C5 as stated: from heading 0 with turn
increment 180, turn-left produces exactly -180, which is outside
`(-180, 180]` (the wrap only fires strictly below -180). -/
theorem C5_counterexample :
    turnLeftHeading 0 180 = -180 ∧
    ¬ ∀ d ts : ℚ, -180 < d → d ≤ 180 → 0 < ts → ts < 360 →
        (-180 < turnLeftHeading d ts ∧ turnLeftHeading d ts ≤ 180) ∧
        (-180 < turnRightHeading d ts ∧ turnRightHeading d ts ≤ 180) := by
  refine ⟨by decide, fun h => ?_⟩
  have h2 := ((h 0 180 (by norm_num) (by norm_num) (by norm_num) (by norm_num)).1).1
  have h3 : turnLeftHeading 0 180 = -180 := by decide
  rw [h3] at h2
  exact absurd h2 (by norm_num)

/-- Amended claim C5: for headings in `(-180, 180]` and turn increments in
`(0, 360)`, turn-right stays in `(-180, 180]` but turn-left lands in
`[-180, 180)` — the boundary -180 is attainable (see the counterexample). -/
theorem C5_amended (d ts : ℚ) (hd1 : -180 < d) (hd2 : d ≤ 180)
    (ht1 : 0 < ts) (ht2 : ts < 360) :
    (-180 ≤ turnLeftHeading d ts ∧ turnLeftHeading d ts < 180) ∧
    (-180 < turnRightHeading d ts ∧ turnRightHeading d ts ≤ 180) := by
  unfold turnLeftHeading turnRightHeading
  refine ⟨⟨?_, ?_⟩, ?_, ?_⟩ <;> split_ifs <;> linarith

/-- Witness for the amended C5 at heading 10, turn size 90. -/
theorem C5_witness :
    (-180 ≤ turnLeftHeading 10 90 ∧ turnLeftHeading 10 90 < 180) ∧
    (-180 < turnRightHeading 10 90 ∧ turnRightHeading 10 90 ≤ 180) :=
  C5_amended 10 90 (by norm_num) (by norm_num) (by norm_num) (by norm_num)

/-! ## Claim C6: the forward transition -/

/-- Claim C6: the forward action advances the position by the step length
along the current heading iff none of the four corner probes (offset by
the collision radius from the destination) is out of bounds or on a wall
cell; otherwise the pose is unchanged; the heading is unchanged in both
cases. -/
theorem C6_forward (T : Trig) (mp : GridMap) (ss ts x y d : ℚ) :
    stepPose T mp ss ts (x, y, d) 2 =
      (if ∃ c ∈ corners (x + ss * T.cosd d) (y + ss * T.sind d),
          c.1 < 0 ∨ c.2 < 0 ∨ (mp.width : ℚ) ≤ c.1 ∨ (mp.height : ℚ) ≤ c.2 ∨
            mp.cell (pytrunc c.1).toNat (pytrunc c.2).toNat = WALL
        then (x, y, d)
        else (x + ss * T.cosd d, y + ss * T.sind d, d)) ∧
    (stepPose T mp ss ts (x, y, d) 2).2.2 = d := by
  have hb : anyCornerBad mp (x + ss * T.cosd d) (y + ss * T.sind d) = true ↔
      ∃ c ∈ corners (x + ss * T.cosd d) (y + ss * T.sind d),
        c.1 < 0 ∨ c.2 < 0 ∨ (mp.width : ℚ) ≤ c.1 ∨ (mp.height : ℚ) ≤ c.2 ∨
          mp.cell (pytrunc c.1).toNat (pytrunc c.2).toNat = WALL := by
    simp [anyCornerBad, cornerBad, List.any_eq_true, or_assoc]
  have hA : stepPose T mp ss ts (x, y, d) 2 =
      if ∃ c ∈ corners (x + ss * T.cosd d) (y + ss * T.sind d),
          c.1 < 0 ∨ c.2 < 0 ∨ (mp.width : ℚ) ≤ c.1 ∨ (mp.height : ℚ) ≤ c.2 ∨
            mp.cell (pytrunc c.1).toNat (pytrunc c.2).toNat = WALL
        then (x, y, d)
        else (x + ss * T.cosd d, y + ss * T.sind d, d) := by
    by_cases hc : ∃ c ∈ corners (x + ss * T.cosd d) (y + ss * T.sind d),
        c.1 < 0 ∨ c.2 < 0 ∨ (mp.width : ℚ) ≤ c.1 ∨ (mp.height : ℚ) ≤ c.2 ∨
          mp.cell (pytrunc c.1).toNat (pytrunc c.2).toNat = WALL
    · rw [if_pos hc]
      have ht : anyCornerBad mp (x + ss * T.cosd d) (y + ss * T.sind d) = true := hb.mpr hc
      simp [stepPose, ht]
    · rw [if_neg hc]
      have ht : anyCornerBad mp (x + ss * T.cosd d) (y + ss * T.sind d) = false := by
        rcases Bool.eq_false_or_eq_true
            (anyCornerBad mp (x + ss * T.cosd d) (y + ss * T.sind d)) with h | h
        · exact absurd (hb.mp h) hc
        · exact h
      simp [stepPose, ht]
  exact ⟨hA, by rw [hA]; split_ifs <;> rfl⟩

theorem arrTerminals_get? (maxSteps : ℕ) (dones : List Bool) :
    ∀ (epstep i : ℕ),
      (arrTerminals maxSteps epstep dones).get? i =
        (dones.get? i).map fun done => done && decide (epstep + i + 1 < maxSteps) := by
  induction dones with
  | nil => intro epstep i; rfl
  | cons done rest ih =>
    intro epstep i
    cases i with
    | zero =>
      simp only [arrTerminals, List.get?, arrStep, Option.map, Nat.add_zero]
      by_cases h : epstep + 1 < maxSteps <;> simp [h]
    | succ j =>
      simp only [arrTerminals, List.get?, arrStep]
      rw [ih]
      have : epstep + 1 + j + 1 = epstep + (j + 1) + 1 := by omega
      rw [this]

/-- Claim C9: in every step observation of the bookkeeping wrapper, the
terminal flag equals the environment's done flag while the step count is
below the cap, and is false otherwise; in particular a terminal flag that
is true implies genuine environment termination, and any step at or past
the cap has a false terminal flag. -/
theorem C9_terminal_flag (maxSteps : ℕ) (dones : List Bool) (i : ℕ) :
    (arrEpisodeTerminals maxSteps dones).get? i =
      (dones.get? i).map (fun done => done && decide (i + 1 < maxSteps)) ∧
    (∀ t, (arrEpisodeTerminals maxSteps dones).get? i = some t → t = true →
      dones.get? i = some true) ∧
    (maxSteps ≤ i + 1 →
      ∀ t, (arrEpisodeTerminals maxSteps dones).get? i = some t → t = false) := by
  have h : (arrEpisodeTerminals maxSteps dones).get? i =
      (dones.get? i).map (fun done => done && decide (i + 1 < maxSteps)) := by
    have h0 := arrTerminals_get? maxSteps dones 0 i
    rw [Nat.zero_add] at h0
    exact h0
  refine ⟨h, ?_, ?_⟩
  · intro t ht htt
    rw [h] at ht
    cases hd : dones.get? i with
    | none => rw [hd] at ht; cases ht
    | some v =>
      rw [hd] at ht
      simp only [Option.map] at ht
      cases ht
      cases v
      · simp at htt
      · rfl
  · intro hcap t ht
    rw [h] at ht
    cases hd : dones.get? i with
    | none => rw [hd] at ht; cases ht
    | some v =>
      rw [hd] at ht
      simp only [Option.map] at ht
      cases ht
      simp [decide_eq_true_eq]
      omega

/-- Witness for C9 with cap 3 and done flags `[false, true, true]`: the
step that hits the cap (index 2) has its genuine `done = true` masked to
`terminal = false`, while the step below the cap keeps `terminal = true`. -/
theorem C9_witness :
    ((arrEpisodeTerminals 3 [false, true, true]).get? 1 =
      ((([false, true, true] : List Bool).get? 1).map
        (fun done => done && decide (1 + 1 < 3)))) ∧
    (∀ t, (arrEpisodeTerminals 3 [false, true, true]).get? 2 = some t → t = false) :=
  ⟨(C9_terminal_flag 3 [false, true, true] 1).1,
   (C9_terminal_flag 3 [false, true, true] 2).2.2 (by decide)⟩

/-- Claim C10: drift detection compares only the position components.  If
the observed position is close to the recorded expected position, then no
drift is detected regardless of the expected heading `e.2.2` and of the
observed direction, and the policy plans for its current goal and keeps
it. -/
theorem C10_drift_ignores_heading (T : Trig) (ss ts : ℚ) (g : ℤ × ℤ)
    (e : Pose) (obs : PolicyObs) (gs : List (ℤ × ℤ)) (b : Bool) (ra : ℕ)
    (hreset : obs.reset = false)
    (hx : npIsClose e.1 obs.x = true) (hy : npIsClose e.2.1 obs.y = true)
    (a : ℕ) (as1 : List ℕ) (p : Pose) (ps : List Pose) (n : ℕ)
    (hM : find_shortest T obs.map (obs.x, obs.y, T.atan2d obs.dy obs.dx) g ss ts
            = .ok (a :: as1, p :: ps, n)) :
    driftDetected (some e) obs.x obs.y = false ∧
    policyCall T ss ts { goal := some g, expectedPos := some e } obs gs b ra =
      .ok (if b then ra else a,
           { goal := some g, expectedPos := if b then none else some p }) := by
  have hd : driftDetected (some e) obs.x obs.y = false := by
    simp [driftDetected, hx, hy]
  refine ⟨hd, ?_⟩
  unfold policyCall
  rw [hreset]
  simp only [if_false, Bool.false_eq_true]
  rw [hd]
  simp only [if_false, Bool.false_eq_true]
  unfold planLoop planLoopAux planAttempt
  rw [hM]
  cases b <;> simp

/-- Claim C8: when an expected pose is recorded and the observed position
is not close to it, the policy detects drift, discards its current goal,
samples a fresh goal, and replans for the fresh goal within the same
call, returning an action rather than raising an error. -/
theorem C8_drift_replans (T : Trig) (ss ts : ℚ) (gOld : ℤ × ℤ)
    (e : Pose) (obs : PolicyObs) (g1 : ℤ × ℤ) (gs : List (ℤ × ℤ)) (b : Bool) (ra : ℕ)
    (hreset : obs.reset = false)
    (hdrift : (npIsClose e.1 obs.x && npIsClose e.2.1 obs.y) = false)
    (a : ℕ) (as1 : List ℕ) (p : Pose) (ps : List Pose) (n : ℕ)
    (hM : find_shortest T obs.map (obs.x, obs.y, T.atan2d obs.dy obs.dx) g1 ss ts
            = .ok (a :: as1, p :: ps, n)) :
    driftDetected (some e) obs.x obs.y = true ∧
    policyCall T ss ts { goal := some gOld, expectedPos := some e } obs (g1 :: gs) b ra =
      .ok (if b then ra else a,
           { goal := some g1, expectedPos := if b then none else some p }) := by
  have hd : driftDetected (some e) obs.x obs.y = true := by
    simp [driftDetected, hdrift]
  refine ⟨hd, ?_⟩
  unfold policyCall
  rw [hreset]
  simp only [if_false, Bool.false_eq_true]
  rw [hd]
  simp only [if_true]
  unfold planLoop planLoopAux planAttempt
  simp only [takeGoal]
  rw [hM]
  cases b <;> simp

unseal Rat.add Rat.mul Rat.sub Rat.inv in
/-- Witness for C10: expected pose `(0.5, 0.5, 90)` and observed position
`(0.5, 0.5)` with observed direction `(1, 0)` (heading 0, i.e. 90 degrees
off the expectation): no drift, and the plan for the kept goal `(1, 0)`
is followed. -/
theorem C10_witness :
    driftDetected (some (1 / 2, 1 / 2, 90)) (1 / 2) (1 / 2) = false ∧
    policyCall trigE 1 90
      { goal := some (1, 0), expectedPos := some (1 / 2, 1 / 2, 90) }
      { x := 1 / 2, y := 1 / 2, dx := 1, dy := 0, map := mapOpen21, reset := false }
      [] false 0 =
      .ok (if false then 0 else 2,
        { goal := some (1, 0),
          expectedPos := if false then none else some (3 / 2, 1 / 2, 0) }) :=
  C10_drift_ignores_heading trigE 1 90 (1, 0) (1 / 2, 1 / 2, 90)
    { x := 1 / 2, y := 1 / 2, dx := 1, dy := 0, map := mapOpen21, reset := false }
    [] false 0 rfl (by decide) (by decide) 2 [] (3 / 2, 1 / 2, 0) [] 6 (by decide)

unseal Rat.add Rat.mul Rat.sub Rat.inv in
/-- Witness for C8: expected pose `(10, 10, 0)` but observed position
`(0.5, 0.5)`: drift is detected, the stale goal `(0, 0)` is discarded,
and the freshly sampled goal `(1, 0)` is planned for in the same call. -/
theorem C8_witness :
    driftDetected (some (10, 10, 0)) (1 / 2) (1 / 2) = true ∧
    policyCall trigE 1 90
      { goal := some (0, 0), expectedPos := some (10, 10, 0) }
      { x := 1 / 2, y := 1 / 2, dx := 1, dy := 0, map := mapOpen21, reset := false }
      [(1, 0)] false 0 =
      .ok (if false then 0 else 2,
        { goal := some (1, 0),
          expectedPos := if false then none else some (3 / 2, 1 / 2, 0) }) :=
  C8_drift_replans trigE 1 90 (0, 0) (10, 10, 0)
    { x := 1 / 2, y := 1 / 2, dx := 1, dy := 0, map := mapOpen21, reset := false }
    (1, 0) [] false 0 rfl (by decide) 2 [] (3 / 2, 1 / 2, 0) [] 6 (by decide)

theorem natDigitsRevAux_irrel (f1 : ℕ) :
    ∀ (f2 n : ℕ), n < f1 → n < f2 → natDigitsRevAux f1 n = natDigitsRevAux f2 n := by
  induction f1 with
  | zero => intro f2 n h1; omega
  | succ g ih =>
    intro f2 n h1 h2
    cases f2 with
    | zero => omega
    | succ g2 =>
      simp only [natDigitsRevAux]
      by_cases h : n < 10
      · rw [if_pos h, if_pos h]
      · rw [if_neg h, if_neg h, ih g2 (n / 10) (by omega) (by omega)]

/-- The recurrence satisfied by `natDigitsRev`. -/
theorem natDigitsRev_eq (n : ℕ) :
    natDigitsRev n = if n < 10 then [n] else n % 10 :: natDigitsRev (n / 10) := by
  show natDigitsRevAux (n + 1) n = _
  by_cases h : n < 10
  · cases n <;> simp [natDigitsRevAux, h]
  · rw [show natDigitsRevAux (n + 1) n =
        if n < 10 then [n] else n % 10 :: natDigitsRevAux n (n / 10) from rfl]
    rw [if_neg h, if_neg h]
    have hlt : n / 10 < n := Nat.div_lt_self (by omega) (by omega)
    rw [natDigitsRevAux_irrel n (n / 10 + 1) (n / 10) hlt (by omega)]
    rfl

theorem natDigitsRev_lt (n : ℕ) : ∀ d ∈ natDigitsRev n, d < 10 := by
  induction n using Nat.strong_induction_on with
  | _ n ih =>
    rw [natDigitsRev_eq]
    split
    · intro d hd
      simp only [List.mem_singleton] at hd
      omega
    · intro d hd
      rcases List.mem_cons.mp hd with h | h
      · omega
      · next hn =>
        exact ih (n / 10) (Nat.div_lt_self (by omega) (by omega)) d h

theorem natDigitsRev_ne_nil (n : ℕ) : natDigitsRev n ≠ [] := by
  rw [natDigitsRev_eq]
  split <;> simp

theorem digitChar_mem (d : ℕ) :
    digitChar d ∈ ['0', '1', '2', '3', '4', '5', '6', '7', '8', '9'] := by
  unfold digitChar
  split <;> simp

theorem digitChar_isDigit (d : ℕ) : (digitChar d).isDigit = true := by
  have hall : ∀ c ∈ ['0', '1', '2', '3', '4', '5', '6', '7', '8', '9'],
      c.isDigit = true := by decide
  exact hall _ (digitChar_mem d)

theorem digitChar_val (d : ℕ) (hd : d < 10) : (digitChar d).toNat - 48 = d := by
  interval_cases d <;> decide

theorem natRepr_digits (n : ℕ) : ∀ c ∈ natRepr n, c.isDigit = true := by
  intro c hc
  rcases List.mem_map.mp (by simpa [natRepr] using hc) with ⟨d, _, rfl⟩
  exact digitChar_isDigit d

theorem natRepr_ne_nil (n : ℕ) : natRepr n ≠ [] := by
  intro h
  have h2 := natDigitsRev_ne_nil n
  simp [natRepr] at h
  exact h2 h

theorem natRepr_step (n : ℕ) (h : ¬ n < 10) :
    natRepr n = natRepr (n / 10) ++ [digitChar (n % 10)] := by
  have hd : natDigitsRev n = n % 10 :: natDigitsRev (n / 10) := by
    rw [natDigitsRev_eq, if_neg h]
  unfold natRepr
  rw [hd]
  simp

theorem parseNat_append_singleton (a : List Char) (c : Char) :
    parseNat (a ++ [c]) = 10 * parseNat a + (c.toNat - 48) := by
  unfold parseNat
  rw [List.foldl_append]
  rfl

theorem parseNat_natRepr (n : ℕ) : parseNat (natRepr n) = n := by
  induction n using Nat.strong_induction_on with
  | _ n ih =>
    by_cases h : n < 10
    · have hd : natDigitsRev n = [n] := by rw [natDigitsRev_eq, if_pos h]
      have : natRepr n = [digitChar n] := by
        unfold natRepr
        rw [hd]
        rfl
      rw [this]
      have : parseNat [digitChar n] = 10 * parseNat [] + ((digitChar n).toNat - 48) :=
        parseNat_append_singleton [] (digitChar n)
      rw [this, digitChar_val n h]
      have h0 : parseNat [] = 0 := rfl
      rw [h0]
      omega
    · rw [natRepr_step n h, parseNat_append_singleton,
        ih (n / 10) (Nat.div_lt_self (by omega) (by omega)),
        digitChar_val (n % 10) (by omega)]
      omega

theorem parseNat_replicate_zero (k : ℕ) (s : List Char) :
    parseNat (List.replicate k '0' ++ s) = parseNat s := by
  induction k with
  | zero => rfl
  | succ j ih =>
    have : List.replicate (j + 1) '0' ++ s = '0' :: (List.replicate j '0' ++ s) := by
      simp [List.replicate_succ]
    rw [this]
    unfold parseNat at ih ⊢
    simpa using ih

theorem parseNat_padNum (w n : ℕ) : parseNat (padNum w n) = n := by
  unfold padNum
  rw [parseNat_replicate_zero, parseNat_natRepr]

theorem padNum_digits (w n : ℕ) : ∀ c ∈ padNum w n, c.isDigit = true := by
  intro c hc
  unfold padNum at hc
  rcases List.mem_append.mp hc with h | h
  · rw [List.eq_of_mem_replicate h]; decide
  · exact natRepr_digits n c h

theorem pyIsNumeric_padNum (w n : ℕ) : pyIsNumeric (padNum w n) = true := by
  unfold pyIsNumeric
  have h1 : (padNum w n).isEmpty = false := by
    have := natRepr_ne_nil n
    cases hh : padNum w n with
    | nil =>
      exfalso
      have := List.append_ne_nil_of_right_ne_nil (List.replicate (w - (natRepr n).length) '0') this
      exact this (by simpa [padNum] using hh)
    | cons a l => rfl
  rw [h1]
  simp only [Bool.not_false, Bool.true_and]
  rw [List.all_eq_true]
  intro c hc
  exact padNum_digits w n c hc

theorem isDigit_ne_seps (c : Char) (h : c.isDigit = true) :
    c ≠ '-' ∧ c ≠ '.' ∧ c ≠ '_' ∧ c ≠ 'e' ∧ c ≠ 'p' := by
  refine ⟨?_, ?_, ?_, ?_, ?_⟩ <;> intro he <;> rw [he] at h <;> exact absurd h (by decide)

theorem splitOnChar_ne_nil (c : Char) (s : List Char) : splitOnChar c s ≠ [] := by
  induction s with
  | nil => simp [splitOnChar]
  | cons x xs ih =>
    rw [splitOnChar]
    split
    · simp
    · cases h : splitOnChar c xs with
      | nil => simp
      | cons t ts => simp

theorem splitOnChar_not_mem (c : Char) (s : List Char) (h : c ∉ s) :
    splitOnChar c s = [s] := by
  induction s with
  | nil => rfl
  | cons x xs ih =>
    rw [splitOnChar]
    have hx : ¬ x = c := fun he => h (by simp [he])
    rw [if_neg hx]
    rw [ih (fun hm => h (List.mem_cons_of_mem x hm))]

theorem splitOnChar_sep (c : Char) (a b : List Char) (h : c ∉ a) :
    splitOnChar c (a ++ c :: b) = a :: splitOnChar c b := by
  induction a with
  | nil => simp [splitOnChar]
  | cons x xs ih =>
    have hx : ¬ x = c := fun he => h (by simp [he])
    have hxs : c ∉ xs := fun hm => h (List.mem_cons_of_mem x hm)
    rw [List.cons_append, splitOnChar, if_neg hx, ih hxs]

theorem replaceEp_ep_cons (rest : List Char) :
    replaceEp ('e' :: 'p' :: rest) = replaceEp rest := by
  rw [replaceEp]
  simp

theorem replaceEp_no_e : ∀ s : List Char, 'e' ∉ s → replaceEp s = s
  | [], _ => rfl
  | [c], _ => rfl
  | c1 :: c2 :: rest, h => by
    have h1 : ¬ (c1 = 'e' ∧ c2 = 'p') := by
      rintro ⟨he, _⟩
      exact h (by simp [he])
    rw [replaceEp, if_neg h1,
      replaceEp_no_e (c2 :: rest) (fun hm => h (List.mem_cons_of_mem c1 hm))]

/-- Token-level behavior of `countFile` on a well-formed three-token name
`A-B-C.npz` whose tokens avoid the separators. -/
theorem countFile_shape (st : Counters) (A B C : List Char)
    (hA : ∀ x ∈ A, x ≠ '-' ∧ x ≠ '.') (hB : ∀ x ∈ B, x ≠ '-' ∧ x ≠ '.')
    (hC : ∀ x ∈ C, x ≠ '-' ∧ x ≠ '.') :
    countFile st (A ++ '-' :: (B ++ '-' :: (C ++ ['.', 'n', 'p', 'z']))) =
      (let st1 : Counters :=
        if pyIsNumeric C then { st with steps := st.steps + parseNat C } else st
       let sepisode := (splitOnChar '_' (replaceEp B)).getLastD []
       if pyIsNumeric sepisode then
        .ok { st1 with episodes := max st1.episodes (parseNat sepisode + 1) }
       else .ok st1) := by
  have hdotA : '.' ∉ A := fun hm => (hA _ hm).2 rfl
  have hdotB : '.' ∉ B := fun hm => (hB _ hm).2 rfl
  have hdotC : '.' ∉ C := fun hm => (hC _ hm).2 rfl
  have hdashA : '-' ∉ A := fun hm => (hA _ hm).1 rfl
  have hdashB : '-' ∉ B := fun hm => (hB _ hm).1 rfl
  have hdashC : '-' ∉ C := fun hm => (hC _ hm).1 rfl
  have hbase : A ++ '-' :: (B ++ '-' :: (C ++ ['.', 'n', 'p', 'z'])) =
      (A ++ '-' :: (B ++ '-' :: C)) ++ '.' :: ['n', 'p', 'z'] := by simp
  have hdotbase : '.' ∉ A ++ '-' :: (B ++ '-' :: C) := by
    intro hm
    rcases List.mem_append.mp hm with h | h
    · exact hdotA h
    · rcases List.mem_cons.mp h with h | h
      · cases h
      · rcases List.mem_append.mp h with h | h
        · exact hdotB h
        · rcases List.mem_cons.mp h with h | h
          · cases h
          · exact hdotC h
  have hsplitdot :
      splitOnChar '.' (A ++ '-' :: (B ++ '-' :: (C ++ ['.', 'n', 'p', 'z']))) =
      (A ++ '-' :: (B ++ '-' :: C)) :: splitOnChar '.' ['n', 'p', 'z'] := by
    rw [hbase]
    exact splitOnChar_sep '.' _ _ hdotbase
  have hsplitdash : splitOnChar '-' (A ++ '-' :: (B ++ '-' :: C)) = [A, B, C] := by
    rw [splitOnChar_sep '-' A (B ++ '-' :: C) hdashA,
      splitOnChar_sep '-' B C hdashB, splitOnChar_not_mem '-' C hdashC]
  unfold countFile
  rw [hsplitdot]
  simp only [List.headD_cons]
  rw [hsplitdash]
  simp only [List.getLast?_cons, List.getLast?_singleton, List.reverse_cons,
    List.reverse_nil]
  rfl

theorem seedToken_sepfree (seed : ℕ) : ∀ x ∈ 's' :: natRepr seed, x ≠ '-' ∧ x ≠ '.' := by
  intro x hx
  rcases List.mem_cons.mp hx with h | h
  · subst h; exact ⟨by decide, by decide⟩
  · have h2 := isDigit_ne_seps x (natRepr_digits seed x h)
    exact ⟨h2.1, h2.2.1⟩

theorem padToken_sepfree (w n : ℕ) : ∀ x ∈ padNum w n, x ≠ '-' ∧ x ≠ '.' := by
  intro x hx
  have h2 := isDigit_ne_seps x (padNum_digits w n x hx)
  exact ⟨h2.1, h2.2.1⟩

theorem padPair_sepfree (f l : ℕ) :
    ∀ x ∈ padNum 6 f ++ '_' :: padNum 6 l, x ≠ '-' ∧ x ≠ '.' := by
  intro x hx
  rcases List.mem_append.mp hx with h | h
  · exact padToken_sepfree 6 f x h
  · rcases List.mem_cons.mp h with h | h
    · subst h; exact ⟨by decide, by decide⟩
    · exact padToken_sepfree 6 l x h

theorem padPair_no_e (f l : ℕ) : 'e' ∉ padNum 6 f ++ '_' :: padNum 6 l := by
  intro hm
  rcases List.mem_append.mp hm with h | h
  · exact absurd (padNum_digits 6 f 'e' h) (by decide)
  · rcases List.mem_cons.mp h with h | h
    · cases h
    · exact absurd (padNum_digits 6 l 'e' h) (by decide)

theorem splitUnderscore_pair (f l : ℕ) :
    splitOnChar '_' (padNum 6 f ++ '_' :: padNum 6 l) = [padNum 6 f, padNum 6 l] := by
  rw [splitOnChar_sep '_' _ _ (fun hm =>
      absurd (padNum_digits 6 f '_' hm) (by decide)),
    splitOnChar_not_mem '_' _ (fun hm =>
      absurd (padNum_digits 6 l '_' hm) (by decide))]

/-- Processing a multi-episode shard filename adds its step count and
raises the episode counter to its last episode index plus one. -/
theorem countFile_multi (st : Counters) (seed f l s : ℕ) :
    countFile st (shardNameMulti seed f l s) =
      .ok { steps := st.steps + s, episodes := max st.episodes (l + 1) } := by
  have hname : shardNameMulti seed f l s =
      ('s' :: natRepr seed) ++ '-' ::
        (('e' :: 'p' :: (padNum 6 f ++ '_' :: padNum 6 l)) ++ '-' ::
          (padNum 4 s ++ ['.', 'n', 'p', 'z'])) := by
    simp [shardNameMulti]
  have hB : ∀ x ∈ 'e' :: 'p' :: (padNum 6 f ++ '_' :: padNum 6 l),
      x ≠ '-' ∧ x ≠ '.' := by
    intro x hx
    rcases List.mem_cons.mp hx with h | h
    · subst h; exact ⟨by decide, by decide⟩
    · rcases List.mem_cons.mp h with h | h
      · subst h; exact ⟨by decide, by decide⟩
      · exact padPair_sepfree f l x h
  rw [hname, countFile_shape st _ _ _ (seedToken_sepfree seed) hB
    (padToken_sepfree 4 s)]
  have hrep : replaceEp ('e' :: 'p' :: (padNum 6 f ++ '_' :: padNum 6 l)) =
      padNum 6 f ++ '_' :: padNum 6 l := by
    rw [replaceEp_ep_cons, replaceEp_no_e _ (padPair_no_e f l)]
  simp only [hrep, splitUnderscore_pair]
  rw [show ([padNum 6 f, padNum 6 l].getLastD [] : List Char) = padNum 6 l from rfl]
  simp only [pyIsNumeric_padNum, if_true, parseNat_padNum]

/-- Processing a single-episode shard filename adds its step count and
raises the episode counter to its episode index plus one. -/
theorem countFile_single (st : Counters) (seed l s : ℕ) :
    countFile st (shardNameSingle seed l s) =
      .ok { steps := st.steps + s, episodes := max st.episodes (l + 1) } := by
  have hname : shardNameSingle seed l s =
      ('s' :: natRepr seed) ++ '-' ::
        (('e' :: 'p' :: padNum 6 l) ++ '-' ::
          (padNum 4 s ++ ['.', 'n', 'p', 'z'])) := by
    simp [shardNameSingle]
  have hB : ∀ x ∈ 'e' :: 'p' :: padNum 6 l, x ≠ '-' ∧ x ≠ '.' := by
    intro x hx
    rcases List.mem_cons.mp hx with h | h
    · subst h; exact ⟨by decide, by decide⟩
    · rcases List.mem_cons.mp h with h | h
      · subst h; exact ⟨by decide, by decide⟩
      · exact padToken_sepfree 6 l x h
  rw [hname, countFile_shape st _ _ _ (seedToken_sepfree seed) hB
    (padToken_sepfree 4 s)]
  have hrep : replaceEp ('e' :: 'p' :: padNum 6 l) = padNum 6 l := by
    rw [replaceEp_ep_cons, replaceEp_no_e _ (fun hm =>
      absurd (padNum_digits 6 l 'e' hm) (by decide))]
  have hsp : splitOnChar '_' (padNum 6 l) = [padNum 6 l] :=
    splitOnChar_not_mem '_' _ (fun hm =>
      absurd (padNum_digits 6 l '_' hm) (by decide))
  simp only [hrep, hsp]
  rw [show ([padNum 6 l].getLastD [] : List Char) = padNum 6 l from rfl]
  simp only [pyIsNumeric_padNum, if_true, parseNat_padNum]

theorem insertName_perm (x : List Char) (l : List (List Char)) :
    (insertName x l).Perm (x :: l) := by
  induction l with
  | nil => exact List.Perm.refl _
  | cons y ys ih =>
    rw [insertName]
    split
    · exact List.Perm.refl _
    · exact (List.Perm.cons y ih).trans (List.Perm.swap x y ys)

theorem sortNames_perm (files : List (List Char)) : (sortNames files).Perm files := by
  induction files with
  | nil => exact List.Perm.refl _
  | cons x xs ih =>
    exact (insertName_perm x (sortNames xs)).trans (List.Perm.cons x ih)

theorem foldlM_countFile_cons_ok (name : List Char) (s e : ℕ)
    (hu : CounterUpdate name s e) (st : Counters) (l : List (List Char)) :
    List.foldlM countFile st (name :: l) =
      List.foldlM countFile
        { steps := st.steps + s, episodes := max st.episodes e } l := by
  rw [List.foldlM_cons, hu st]
  rfl

/-- Folding `countFile` over a list of pure counter updates is invariant
under permutations of the list (the updates commute). -/
theorem foldlM_countFile_perm (l1 l2 : List (List Char)) (hp : l1.Perm l2)
    (h : ∀ name ∈ l1, ∃ s e, CounterUpdate name s e) :
    ∀ st : Counters, l1.foldlM countFile st = l2.foldlM countFile st := by
  induction hp with
  | nil => intro st; rfl
  | cons x hp2 ih =>
    intro st
    rcases h x (List.mem_cons_self x _) with ⟨s, e, hu⟩
    rw [foldlM_countFile_cons_ok x s e hu, foldlM_countFile_cons_ok x s e hu]
    exact ih (fun name hm => h name (List.mem_cons_of_mem x hm)) _
  | swap x y l =>
    intro st
    rcases h y (List.mem_cons_self y _) with ⟨sy, ey, hy⟩
    rcases h x (List.mem_cons_of_mem y (List.mem_cons_self x _)) with ⟨sx, ex, hx⟩
    rw [foldlM_countFile_cons_ok y sy ey hy, foldlM_countFile_cons_ok x sx ex hx,
      foldlM_countFile_cons_ok x sx ex hx, foldlM_countFile_cons_ok y sy ey hy]
    have h3 : ({ steps := st.steps + sy + sx,
                 episodes := max (max st.episodes ey) ex } : Counters) =
        ({ steps := st.steps + sx + sy,
           episodes := max (max st.episodes ex) ey } : Counters) := by
      have h1 : st.steps + sy + sx = st.steps + sx + sy := by omega
      have h2 : max (max st.episodes ey) ex = max (max st.episodes ex) ey := by omega
      rw [h1, h2]
    show List.foldlM countFile
        ({ steps := st.steps + sy + sx,
           episodes := max (max st.episodes ey) ex } : Counters) l =
      List.foldlM countFile
        ({ steps := st.steps + sx + sy,
           episodes := max (max st.episodes ex) ey } : Counters) l
    rw [h3]
  | trans hp1 hp2 ih1 ih2 =>
    intro st
    rw [ih1 h st]
    exact ih2 (fun name hm => h name (hp1.mem_iff.mpr hm)) st

theorem countFile_writer (st : Counters) (seed : ℕ) (r : ℕ × ℕ × ℕ) :
    countFile st (writerName seed r) =
      .ok { steps := st.steps + r.2.2, episodes := max st.episodes (r.2.1 + 1) } := by
  unfold writerName
  split
  · exact countFile_single st seed r.2.1 r.2.2
  · exact countFile_multi st seed r.1 r.2.1 r.2.2

theorem countFold_writer (seed : ℕ) (rs : List (ℕ × ℕ × ℕ)) :
    ∀ st : Counters,
      (rs.map (writerName seed)).foldlM countFile st =
        .ok { steps := st.steps + (rs.map fun r => r.2.2).sum,
              episodes := (rs.map fun r => r.2.1 + 1).foldl max st.episodes } := by
  induction rs with
  | nil =>
    intro st
    show (Except.ok st : Except Unit Counters) = _
    simp
  | cons r rs2 ih =>
    intro st
    rw [List.map_cons,
      foldlM_countFile_cons_ok (writerName seed r) r.2.2 (r.2.1 + 1)
        (fun st2 => countFile_writer st2 seed r), ih]
    simp only [List.map_cons, List.foldl_cons, List.sum_cons]
    congr 2
    omega

theorem foldl_max_succ (xs : List ℕ) : ∀ a : ℕ,
    (xs.map fun x => x + 1).foldl max (a + 1) = xs.foldl max a + 1 := by
  induction xs with
  | nil => intro a; rfl
  | cons x xs2 ih =>
    intro a
    simp only [List.map_cons, List.foldl_cons]
    rw [Nat.succ_max_succ]
    exact ih (max a x)

/-- Claim C3: rescanning any listing-order permutation of N shards
written by the writer's filename scheme yields a step counter equal to
the sum of the shards' step counts and an episode counter equal to one
more than the maximum last-episode index; and a well-formed three-token
filename whose numeric tokens are in fact non-numeric contributes nothing
rather than raising an error. -/
theorem C3_resumption (seed : ℕ) (rs : List (ℕ × ℕ × ℕ)) (hne : rs ≠ [])
    (names2 : List (List Char)) (hperm : names2.Perm (rs.map (writerName seed))) :
    count_steps names2 =
      .ok { steps := (rs.map fun r => r.2.2).sum,
            episodes := (rs.map fun r => r.2.1).foldl max 0 + 1 } ∧
    (∀ (st : Counters) (A B C : List Char),
      (∀ x ∈ A, x ≠ '-' ∧ x ≠ '.') → (∀ x ∈ B, x ≠ '-' ∧ x ≠ '.') →
      (∀ x ∈ C, x ≠ '-' ∧ x ≠ '.') →
      pyIsNumeric C = false →
      pyIsNumeric ((splitOnChar '_' (replaceEp B)).getLastD []) = false →
      countFile st (A ++ '-' :: (B ++ '-' :: (C ++ ['.', 'n', 'p', 'z']))) = .ok st) := by
  constructor
  · have hsp : (sortNames names2).Perm (rs.map (writerName seed)) :=
      (sortNames_perm names2).trans hperm
    have hupd : ∀ name ∈ sortNames names2, ∃ s e, CounterUpdate name s e := by
      intro name hm
      rcases List.mem_map.mp (hsp.mem_iff.mp hm) with ⟨r, _, rfl⟩
      exact ⟨r.2.2, r.2.1 + 1, fun st => countFile_writer st seed r⟩
    have h1 := foldlM_countFile_perm (sortNames names2) (rs.map (writerName seed))
      hsp hupd { steps := 0, episodes := 0 }
    unfold count_steps
    rw [h1, countFold_writer seed rs { steps := 0, episodes := 0 }]
    cases rs with
    | nil => exact absurd rfl hne
    | cons r rs2 =>
      have hmax : ((r :: rs2).map fun x => x.2.1 + 1).foldl max 0 =
          ((r :: rs2).map fun x => x.2.1).foldl max 0 + 1 := by
        have he : ((r :: rs2).map fun x => x.2.1 + 1) =
            ((r :: rs2).map fun x => x.2.1).map fun v => v + 1 := by
          rw [List.map_map]
          rfl
        rw [he]
        simp only [List.map_cons, List.foldl_cons]
        rw [show max 0 (r.2.1 + 1) = max 0 r.2.1 + 1 by omega]
        exact foldl_max_succ (rs2.map fun x => x.2.1) (max 0 r.2.1)
      rw [show (0 : ℕ) + ((r :: rs2).map fun x => x.2.2).sum =
        ((r :: rs2).map fun x => x.2.2).sum by omega, hmax]
  · intro st A B C hA hB hC hCn hBn
    rw [countFile_shape st A B C hA hB hC]
    simp only [hCn, hBn, if_false, Bool.false_eq_true]

/-- Witness for C3: two shards, a two-episode one with 10 steps and a
single-episode one with 5 steps, listed in reversed order, scan to 15
steps and 3 episodes. -/
theorem C3_witness :
    count_steps [shardNameSingle 0 2 5, shardNameMulti 0 0 1 10] =
      .ok { steps := 15, episodes := 3 } := by
  have h := (C3_resumption 0 [(0, 1, 10), (2, 2, 5)] (by simp)
    [shardNameSingle 0 2 5, shardNameMulti 0 0 1 10]
    (by
      have : [(0, 1, 10), (2, 2, 5)].map (writerName 0) =
          [shardNameMulti 0 0 1 10, shardNameSingle 0 2 5] := by
        simp [writerName, shardNameMulti, shardNameSingle]
      rw [this]
      exact List.Perm.swap _ _ _)).1
  simpa using h

/-- Claim C2: after an episode completes, the buffer flushes exactly when
the accumulated step count (sum over buffered episodes of length minus
one) reaches the threshold and never before; after a flush the buffer is
empty (without one, the buffer simply grows by the whole episode — flushes
happen only at episode boundaries); and the flushed shard's step count is
the true sum, its episode range covers exactly the flushed episodes in
order, and parsing its filename back recovers the step count and the
last episode index. -/
theorem C2_buffer_flush (threshold seed : ℕ) (st : GenState) (epLen : ℕ)
    (hidx : st.datas.map Prod.fst =
      List.range' (st.episodes - st.datas.length) st.datas.length)
    (hcnt : st.datas.length ≤ st.episodes) :
    ((recordEpisode threshold seed st epLen).2.isSome = true ↔
      threshold ≤ bufferedSteps (st.datas ++ [(st.episodes, epLen)])) ∧
    ((recordEpisode threshold seed st epLen).2.isSome = true →
      (recordEpisode threshold seed st epLen).1.datas = []) ∧
    ((recordEpisode threshold seed st epLen).2 = none →
      (recordEpisode threshold seed st epLen).1 =
        { episodes := st.episodes + 1, datas := st.datas ++ [(st.episodes, epLen)] }) ∧
    (∀ fl, (recordEpisode threshold seed st epLen).2 = some fl →
      fl.steps = bufferedSteps (st.datas ++ [(st.episodes, epLen)]) ∧
      fl.lastEp = st.episodes ∧
      fl.firstEp + st.datas.length = st.episodes ∧
      (st.datas ++ [(st.episodes, epLen)]).map Prod.fst =
        List.range' fl.firstEp (st.datas.length + 1) ∧
      countFile { steps := 0, episodes := 0 } fl.name =
        .ok { steps := fl.steps, episodes := fl.lastEp + 1 }) := by
  have hlen : (st.datas ++ [(st.episodes, epLen)]).length = st.datas.length + 1 := by
    simp
  by_cases h : threshold ≤ bufferedSteps (st.datas ++ [(st.episodes, epLen)])
  · have hrec : recordEpisode threshold seed st epLen =
        ({ episodes := st.episodes + 1, datas := [] },
         some { firstEp := st.episodes + 1 - (st.datas.length + 1),
                lastEp := st.episodes + 1 - 1,
                steps := bufferedSteps (st.datas ++ [(st.episodes, epLen)]),
                name :=
                  if 1 < st.datas.length + 1 then
                    shardNameMulti seed (st.episodes + 1 - (st.datas.length + 1))
                      (st.episodes + 1 - 1)
                      (bufferedSteps (st.datas ++ [(st.episodes, epLen)]))
                  else
                    shardNameSingle seed (st.episodes + 1 - 1)
                      (bufferedSteps (st.datas ++ [(st.episodes, epLen)])) }) := by
      simp only [recordEpisode, hlen, if_pos h]
    rw [hrec]
    refine ⟨by simp [h], fun _ => rfl, by simp, ?_⟩
    intro fl hfl
    have hfl2 := Option.some.inj hfl
    subst hfl2
    dsimp only
    refine ⟨rfl, by omega, by omega, ?_, ?_⟩
    · rw [List.map_append, hidx]
      have h1 : st.episodes + 1 - (st.datas.length + 1) = st.episodes - st.datas.length := by
        omega
      rw [h1, List.range'_concat]
      have h2 : st.episodes - st.datas.length + 1 * st.datas.length = st.episodes := by
        omega
      rw [h2]
      rfl
    · by_cases hn : 1 < st.datas.length + 1
      · rw [if_pos hn, countFile_multi]
        have h3 : st.episodes + 1 - 1 = st.episodes := by omega
        simp [h3]
      · rw [if_neg hn, countFile_single]
        have h3 : st.episodes + 1 - 1 = st.episodes := by omega
        simp [h3]
  · have hrec : recordEpisode threshold seed st epLen =
        ({ episodes := st.episodes + 1, datas := st.datas ++ [(st.episodes, epLen)] },
         none) := by
      simp only [recordEpisode, if_neg h]
    rw [hrec]
    exact ⟨by simp [h], by simp, fun _ => rfl, fun fl hfl => by cases hfl⟩

/-- Witness for C2 matching the spec's end-to-end scenario: threshold 2,
seed 0, empty buffer, one completed episode of 3 steps (4 recorded
observations) flushes immediately with filename `s0-ep000000-0003.npz`,
whose parse recovers 3 steps and episode count 1. -/
theorem C2_witness :
    (recordEpisode 2 0 { episodes := 0, datas := [] } 4).2 =
      some { firstEp := 0, lastEp := 0, steps := 3, name := shardNameSingle 0 0 3 } ∧
    countFile { steps := 0, episodes := 0 } (shardNameSingle 0 0 3) =
      .ok { steps := 3, episodes := 1 } := by
  have hsome : (recordEpisode 2 0 { episodes := 0, datas := [] } 4).2 =
      some { firstEp := 0, lastEp := 0, steps := 3, name := shardNameSingle 0 0 3 } := by
    rfl
  have h := (C2_buffer_flush 2 0 { episodes := 0, datas := [] } 4 rfl
    (Nat.le_refl 0)).2.2.2 _ hsome
  exact ⟨hsome, h.2.2.2.2⟩

/-! ## Claim C7: termination of the search -/

/-- Effect of a successful expansion on the search state: the dequeue
index is unchanged; queue and visited list grow in lock step (one fresh
key per enqueued pose); the visited list remains the key image of the
queue, stays within the cap, and stays duplicate-free. -/
theorem expandActions_ok (T : Trig) (m : GridMap) (ss ts : ℚ) (p : Pose) :
    ∀ (acts : List ℕ) (st st1 : SearchState),
      expandActions T m ss ts p acts st = .ok st1 →
      st1.queIx = st.queIx ∧
      st.que.length ≤ st1.que.length ∧
      st1.que.length + st.visited.length = st.que.length + st1.visited.length ∧
      (st.visited = st.que.map poseKey → st1.visited = st1.que.map poseKey) ∧
      (st.visited.length ≤ CAP → st1.visited.length ≤ CAP) ∧
      (st.visited.Nodup → st1.visited.Nodup) := by
  intro acts
  induction acts with
  | nil =>
    intro st st1 h
    simp only [expandActions] at h
    cases h
    exact ⟨rfl, Nat.le_refl _, rfl, fun h => h, fun h => h, fun h => h⟩
  | cons a rest ih =>
    intro st st1 h
    simp only [expandActions] at h
    by_cases hmem : poseKey (stepPose T m ss ts p a) ∈ st.visited
    · rw [if_pos hmem] at h
      exact ih st st1 h
    · rw [if_neg hmem] at h
      set stb : SearchState :=
        { que := st.que ++ [stepPose T m ss ts p a], queIx := st.queIx,
          visited := st.visited ++ [poseKey (stepPose T m ss ts p a)],
          par := st.par ++ [(stepPose T m ss ts p a, p, a)] } with hstb
      by_cases hcap : stb.visited.length < CAP
      · rw [if_pos hcap] at h
        rcases ih stb st1 h with ⟨h1, h2, h3, h4, h5, h6⟩
        have hqb : stb.que.length = st.que.length + 1 := by simp [hstb]
        have hvb : stb.visited.length = st.visited.length + 1 := by simp [hstb]
        refine ⟨h1, by omega, by omega, ?_, fun _ => h5 (by omega), ?_⟩
        · intro hsync
          apply h4
          simp only [hstb, hsync, List.map_append]
          rfl
        · intro hnd
          apply h6
          simp only [hstb]
          exact List.Nodup.append hnd (List.nodup_singleton _)
            (by simpa using hmem)
      · rw [if_neg hcap] at h
        cases h

/-- A failing expansion always reports the runaway guard. -/
theorem expandActions_error (T : Trig) (m : GridMap) (ss ts : ℚ) (p : Pose) :
    ∀ (acts : List ℕ) (st : SearchState) (e : PlanErr),
      expandActions T m ss ts p acts st = .error e → e = .runaway := by
  intro acts
  induction acts with
  | nil => intro st e h; cases h
  | cons a rest ih =>
    intro st e h
    simp only [expandActions] at h
    by_cases hmem : poseKey (stepPose T m ss ts p a) ∈ st.visited
    · rw [if_pos hmem] at h
      exact ih st e h
    · rw [if_neg hmem] at h
      split at h
      · exact ih _ e h
      · cases h
        rfl

/-- The search loop never exhausts its fuel when given more fuel than the
measure `(unprocessed queue entries) + 2 * (remaining cap)`, and every
final state keeps the visited list duplicate-free, within the cap, and
equal to the key image of the queue. -/
theorem bfsLoop_post (T : Trig) (m : GridMap) (ss ts : ℚ) (g : ℤ × ℤ) :
    ∀ (fuel : ℕ) (st : SearchState),
      st.visited = st.que.map poseKey →
      st.queIx ≤ st.que.length →
      st.visited.length ≤ CAP →
      st.visited.Nodup →
      (st.que.length - st.queIx) + 2 * (CAP - st.visited.length) < fuel →
      (bfsLoop T m ss ts g fuel st ≠ .fail .noFuel) ∧
      (∀ p stf, bfsLoop T m ss ts g fuel st = .found p stf →
        stf.visited.length ≤ CAP ∧ stf.visited.Nodup ∧
          stf.visited = stf.que.map poseKey) ∧
      (∀ stf, bfsLoop T m ss ts g fuel st = .noGoal stf →
        stf.visited.length ≤ CAP ∧ stf.visited.Nodup ∧
          stf.visited = stf.que.map poseKey) := by
  intro fuel
  induction fuel with
  | zero => intro st _ _ _ _ hm; omega
  | succ fuel ih =>
    intro st hsync hix hcap hnd hm
    rw [bfsLoop]
    cases hq : st.que.get? st.queIx with
    | none =>
      dsimp only
      refine ⟨by simp, by simp, ?_⟩
      intro stf hf
      cases hf
      exact ⟨hcap, hnd, hsync⟩
    | some p =>
      dsimp only
      by_cases hg : atGoal p g = true
      · rw [if_pos hg]
        refine ⟨by simp, ?_, by simp⟩
        intro p2 stf hf
        cases hf
        exact ⟨hcap, hnd, hsync⟩
      · rw [if_neg hg]
        cases hex : expandActions T m ss ts p [0, 1, 2] st with
        | error e =>
          have he := expandActions_error T m ss ts p [0, 1, 2] st e hex
          subst he
          simp
        | ok st1 =>
          rcases expandActions_ok T m ss ts p [0, 1, 2] st st1 hex with
            ⟨h1, h2, h3, h4, h5, h6⟩
          have hqlt : st.queIx < st.que.length := by
            rcases List.get?_eq_some.mp hq with ⟨hlt, _⟩
            exact hlt
          refine ih { st1 with queIx := st1.queIx + 1 } (h4 hsync) ?_ (h5 hcap)
            (h6 hnd) ?_
          · show st1.queIx + 1 ≤ st1.que.length
            omega
          · show st1.que.length - (st1.queIx + 1) + 2 * (CAP - st1.visited.length) < fuel
            have hc1 := h5 hcap
            omega

unseal Rat.add Rat.mul Rat.sub Rat.inv in
/-- Claim C7: the planner's search terminates on every input (the fuelled
embedding of the `while` loop never exhausts its fuel, so the loop always
reaches a regular outcome or the runaway assertion); any returned
visited-state count is within the fixed cap of 100000; each key is
enqueued at most once, so the visited list stays duplicate-free and the
queue is exactly one pose per visited key; and on the concrete map whose
start cell is surrounded by walls on all four sides, forward actions
are no-ops and the search still terminates, returning no path after
visiting only the 5 heading keys. -/
theorem C7_termination :
    (∀ (T : Trig) (m : GridMap) (start : Pose) (g : ℤ × ℤ) (ss ts : ℚ),
      find_shortest T m start g ss ts ≠ .error .noFuel ∧
      ∀ acts path nvis,
        find_shortest T m start g ss ts = .ok (acts, path, nvis) → nvis ≤ CAP) ∧
    (∀ (T : Trig) (m : GridMap) (ss ts : ℚ) (p : Pose) (acts : List ℕ)
        (st st1 : SearchState),
      expandActions T m ss ts p acts st = .ok st1 →
      st.visited.Nodup → st.visited = st.que.map poseKey →
      st1.visited.Nodup ∧ st1.visited = st1.que.map poseKey ∧
        st1.que.length = st1.visited.length) ∧
    find_shortest trigE mapWalled (3 / 2, 3 / 2, 0) (0, 0) 1 90 = .ok ([], [], 5) := by
  refine ⟨?_, ?_, by decide⟩
  · intro T m start g ss ts
    rcases bfsLoop_post T m ss ts g FUEL
        { que := [start], queIx := 0, visited := [poseKey start], par := [] }
        rfl (by simp) (by norm_num [CAP]) (List.nodup_singleton _)
        (by norm_num [CAP, FUEL]) with ⟨hnf, hfound, hnogoal⟩
    cases hb : bfsLoop T m ss ts g FUEL
        { que := [start], queIx := 0, visited := [poseKey start], par := [] } with
    | found p stf =>
      have hfs : find_shortest T m start g ss ts =
          .ok ((backtrack stf.par (stf.par.length + 1) p).2.reverse,
               (backtrack stf.par (stf.par.length + 1) p).1.reverse,
               stf.visited.length) := by
        unfold find_shortest
        dsimp only
        rw [hb]
      rw [hfs]
      refine ⟨by simp, ?_⟩
      intro acts path nvis h
      have h2 := Except.ok.inj h
      have h3 : nvis = stf.visited.length := congrArg (fun r => r.2.2) h2.symm
      rw [h3]
      exact (hfound p stf hb).1
    | noGoal stf =>
      have hfs : find_shortest T m start g ss ts = .ok ([], [], stf.visited.length) := by
        unfold find_shortest
        dsimp only
        rw [hb]
      rw [hfs]
      refine ⟨by simp, ?_⟩
      intro acts path nvis h
      have h2 := Except.ok.inj h
      have h3 : nvis = stf.visited.length := congrArg (fun r => r.2.2) h2.symm
      rw [h3]
      exact (hnogoal stf hb).1
    | fail e =>
      cases e with
      | runaway =>
        have hfs : find_shortest T m start g ss ts = .error .runaway := by
          unfold find_shortest
          dsimp only
          rw [hb]
        rw [hfs]
        exact ⟨by simp, fun acts path nvis h => by cases h⟩
      | noFuel => exact absurd hb hnf
  · intro T m ss ts p acts st st1 hok hnd hsync
    rcases expandActions_ok T m ss ts p acts st st1 hok with ⟨_, _, _, h4, _, h6⟩
    have hs1 := h4 hsync
    exact ⟨h6 hnd, hs1, by rw [hs1, List.length_map]⟩

unseal Rat.add Rat.mul Rat.sub Rat.inv in
/-- Witness for C7 at a concrete planner run: the search neither runs out
of fuel nor exceeds the cap. -/
theorem C7_witness :
    find_shortest trigE mapOpen21 (1 / 2, 1 / 2, 0) (1, 0) 1 90 ≠ .error .noFuel ∧
    (6 : ℕ) ≤ CAP :=
  ⟨(C7_termination.1 trigE mapOpen21 (1 / 2, 1 / 2, 0) (1, 0) 1 90).1,
   (C7_termination.1 trigE mapOpen21 (1 / 2, 1 / 2, 0) (1, 0) 1 90).2 [2]
     [(3 / 2, 1 / 2, 0)] 6 (by decide)⟩

theorem reachInN_nonempty (T : Trig) (m : GridMap) (ss ts : ℚ) (start p : Pose)
    (h : ReachablePose T m ss ts start p) :
    {n | ReachInN T m ss ts start p n}.Nonempty := by
  rcases h with ⟨seq, hg, happ⟩
  exact ⟨seq.length, seq, hg, rfl, happ⟩

theorem dist_spec (T : Trig) (m : GridMap) (ss ts : ℚ) (start p : Pose)
    (h : ReachablePose T m ss ts start p) :
    ReachInN T m ss ts start p (dist T m ss ts start p) :=
  Nat.sInf_mem (reachInN_nonempty T m ss ts start p h)

theorem dist_le (T : Trig) (m : GridMap) (ss ts : ℚ) (start p : Pose) (n : ℕ)
    (h : ReachInN T m ss ts start p n) : dist T m ss ts start p ≤ n :=
  Nat.sInf_le h

theorem start_reachable (T : Trig) (m : GridMap) (ss ts : ℚ) (start : Pose) :
    ReachablePose T m ss ts start start :=
  ⟨[], fun a ha => absurd ha (List.not_mem_nil a), rfl⟩

theorem dist_start (T : Trig) (m : GridMap) (ss ts : ℚ) (start : Pose) :
    dist T m ss ts start start = 0 :=
  Nat.le_zero.mp (dist_le T m ss ts start start 0
    ⟨[], fun a ha => absurd ha (List.not_mem_nil a), rfl, rfl⟩)

theorem dist_eq_zero (T : Trig) (m : GridMap) (ss ts : ℚ) (start p : Pose)
    (h : ReachablePose T m ss ts start p) (h0 : dist T m ss ts start p = 0) :
    p = start := by
  have hs := dist_spec T m ss ts start p h
  rw [h0] at hs
  rcases hs with ⟨seq, _, hlen, happ⟩
  rw [List.length_eq_zero.mp hlen] at happ
  exact happ.symm

theorem applyActions_append_one (T : Trig) (m : GridMap) (ss ts : ℚ)
    (start : Pose) (seq : List ℕ) (a : ℕ) :
    applyActions T m ss ts start (seq ++ [a]) =
      stepPose T m ss ts (applyActions T m ss ts start seq) a := by
  unfold applyActions
  rw [List.foldl_append]
  rfl

theorem step_reachable (T : Trig) (m : GridMap) (ss ts : ℚ) (start p : Pose)
    (a : ℕ) (ha : a < 3) (h : ReachablePose T m ss ts start p) :
    ReachablePose T m ss ts start (stepPose T m ss ts p a) := by
  rcases h with ⟨seq, hg, happ⟩
  refine ⟨seq ++ [a], ?_, ?_⟩
  · intro b hb
    rcases List.mem_append.mp hb with h1 | h1
    · exact hg b h1
    · rw [List.mem_singleton.mp h1]
      exact ha
  · rw [applyActions_append_one, happ]

theorem dist_step_le (T : Trig) (m : GridMap) (ss ts : ℚ) (start p : Pose)
    (a : ℕ) (ha : a < 3) (h : ReachablePose T m ss ts start p) :
    dist T m ss ts start (stepPose T m ss ts p a) ≤ dist T m ss ts start p + 1 := by
  rcases dist_spec T m ss ts start p h with ⟨seq, hg, hlen, happ⟩
  refine dist_le T m ss ts start _ _ ⟨seq ++ [a], ?_, ?_, ?_⟩
  · intro b hb
    rcases List.mem_append.mp hb with h1 | h1
    · exact hg b h1
    · rw [List.mem_singleton.mp h1]
      exact ha
  · rw [List.length_append, hlen]
    rfl
  · rw [applyActions_append_one, happ]

theorem dist_decomp (T : Trig) (m : GridMap) (ss ts : ℚ) (start p : Pose) (n : ℕ)
    (h : ReachablePose T m ss ts start p) (hd : dist T m ss ts start p = n + 1) :
    ∃ y a, a < 3 ∧ ReachablePose T m ss ts start y ∧
      dist T m ss ts start y = n ∧ stepPose T m ss ts y a = p := by
  have hs := dist_spec T m ss ts start p h
  rw [hd] at hs
  rcases hs with ⟨seq, hg, hlen, happ⟩
  have hne : seq ≠ [] := by
    intro he
    rw [he] at hlen
    cases hlen
  have hsplit : seq.dropLast ++ [seq.getLast hne] = seq := List.dropLast_append_getLast hne
  set y := applyActions T m ss ts start seq.dropLast with hy
  have hgd : GoodSeq seq.dropLast := fun b hb => hg b (List.dropLast_subset seq hb)
  have hry : ReachablePose T m ss ts start y := ⟨seq.dropLast, hgd, rfl⟩
  have hstep : stepPose T m ss ts y (seq.getLast hne) = p := by
    rw [hy, ← applyActions_append_one, hsplit, happ]
  have hlast3 : seq.getLast hne < 3 := hg _ (List.getLast_mem hne)
  have hldl : seq.dropLast.length = n := by
    rw [List.length_dropLast, hlen]
    rfl
  have hdyle : dist T m ss ts start y ≤ n := dist_le T m ss ts start y n ⟨seq.dropLast, hgd, hldl, rfl⟩
  have hdyge : n ≤ dist T m ss ts start y := by
    by_contra hlt
    push_neg at hlt
    rcases dist_spec T m ss ts start y hry with ⟨seq2, hg2, hlen2, happ2⟩
    have : ReachInN T m ss ts start p (dist T m ss ts start y + 1) := by
      refine ⟨seq2 ++ [seq.getLast hne], ?_, ?_, ?_⟩
      · intro b hb
        rcases List.mem_append.mp hb with h1 | h1
        · exact hg2 b h1
        · rw [List.mem_singleton.mp h1]
          exact hlast3
      · rw [List.length_append, hlen2]
        rfl
      · rw [applyActions_append_one, happ2, hstep]
    have h2 := dist_le T m ss ts start p _ this
    omega
  exact ⟨y, seq.getLast hne, hlast3, hry, le_antisymm hdyle hdyge, hstep⟩

theorem mem_take_of_get {α : Type} :
    ∀ (l : List α) (n i : ℕ) (h : i < l.length), i < n → l.get ⟨i, h⟩ ∈ l.take n := by
  intro l
  induction l with
  | nil => intro n i h; cases h
  | cons x xs ih =>
    intro n i h hin
    cases n with
    | zero => omega
    | succ mm =>
      cases i with
      | zero => simp [List.take_succ_cons]
      | succ j =>
        rw [List.take_succ_cons]
        refine List.mem_cons_of_mem x ?_
        exact ih mm j (by simpa using h) (by omega)

theorem key_mem_que (T : Trig) (m : GridMap) (ss ts : ℚ) (start : Pose)
    (g : ℤ × ℤ) (st : SearchState) (hInv : Inv T m ss ts start g st)
    (k : Pose) (hk : k ∈ st.visited) : ∃ w ∈ st.que, poseKey w = k := by
  rw [hInv.hsync] at hk
  rcases List.mem_map.mp hk with ⟨w, hw, hwk⟩
  exact ⟨w, hw, hwk⟩

/-- A queue entry strictly closer than the current front has already been
dequeued. -/
theorem mem_take_of_dist_lt (T : Trig) (m : GridMap) (ss ts : ℚ) (start : Pose)
    (g : ℤ × ℤ) (st : SearchState) (hInv : Inv T m ss ts start g st)
    (pf : Pose) (hfront : st.que.get? st.queIx = some pf)
    (z : Pose) (hz : z ∈ st.que)
    (hlt : dist T m ss ts start z < dist T m ss ts start pf) :
    z ∈ st.que.take st.queIx := by
  rcases List.mem_iff_get.mp hz with ⟨⟨iz, hiz⟩, hzget⟩
  rcases List.get?_eq_some.mp hfront with ⟨hqi, hpfget⟩
  by_cases hcase : iz < st.queIx
  · rw [← hzget]
    exact mem_take_of_get st.que st.queIx iz hiz hcase
  · exfalso
    push_neg at hcase
    have hs := hInv.hsorted st.queIx iz hqi hiz hcase
    rw [hzget, hpfget] at hs
    omega

/-- Covering: under key-injectivity, every reachable pose strictly closer
than the current front has already been dequeued. -/
theorem covering (T : Trig) (m : GridMap) (ss ts : ℚ) (start : Pose)
    (g : ℤ × ℤ) (hinj : KeyInj T m ss ts start) (st : SearchState)
    (hInv : Inv T m ss ts start g st)
    (pf : Pose) (hfront : st.que.get? st.queIx = some pf) :
    ∀ (n : ℕ) (z : Pose), ReachablePose T m ss ts start z →
      dist T m ss ts start z = n →
      dist T m ss ts start z < dist T m ss ts start pf →
      z ∈ st.que.take st.queIx := by
  intro n
  induction n using Nat.strong_induction_on with
  | _ n ih =>
    intro z hrz hdz hlt
    have hstartmem : start ∈ st.que := by
      rcases List.get?_eq_some.mp hInv.hhead with ⟨h0, hget⟩
      rw [← hget]
      exact List.get_mem st.que 0 h0
    cases n with
    | zero =>
      have hzs : z = start := dist_eq_zero T m ss ts start z hrz hdz
      rcases List.get?_eq_some.mp hInv.hhead with ⟨h0, hget⟩
      have hq0 : 0 < st.queIx := by
        by_contra hq
        push_neg at hq
        have hqIx : st.queIx = 0 := by omega
        rw [hqIx] at hfront
        rcases List.get?_eq_some.mp hfront with ⟨hqi, hpfget⟩
        have hpfs : pf = start := by
          rw [← hpfget, ← hget]
        rw [hzs, hpfs] at hlt
        omega
      rw [hzs, ← hget]
      exact mem_take_of_get st.que st.queIx 0 h0 hq0
    | succ k =>
      rcases dist_decomp T m ss ts start z k hrz hdz with ⟨y, b, hb3, hry, hdy, hstep⟩
      have hylt : dist T m ss ts start y < dist T m ss ts start pf := by omega
      have hytake : y ∈ st.que.take st.queIx :=
        ih k (by omega) y hry hdy (by rw [hdy]; omega)
      have hkey : poseKey (stepPose T m ss ts y b) ∈ st.visited :=
        hInv.hexp y hytake b hb3
      rw [hstep] at hkey
      rcases key_mem_que T m ss ts start g st hInv _ hkey with ⟨w, hwm, hwk⟩
      have hwz : w = z := hinj w z (hInv.hreach w hwm) hrz hwk
      rw [hwz] at hwm
      exact mem_take_of_dist_lt T m ss ts start g st hInv pf hfront z hwm hlt

/-- Reading a one-element append at the old length gives the appended element. -/
theorem get_concat_len {α : Type} (l : List α) (a : α)
    (h : l.length < (l ++ [a]).length) : (l ++ [a]).get ⟨l.length, h⟩ = a :=
  List.get_of_append rfl rfl

/-- A successor of the current front whose key is unvisited lies exactly
one distance step beyond the front (this is where breadth-first layering
and key-injectivity meet). -/
theorem dist_fresh_child (T : Trig) (m : GridMap) (ss ts : ℚ) (start : Pose)
    (g : ℤ × ℤ) (hinj : KeyInj T m ss ts start) (st : SearchState)
    (hInv : Inv T m ss ts start g st) (p : Pose) (a : ℕ) (ha : a < 3)
    (hfront : st.que.get? st.queIx = some p)
    (hfresh : poseKey (stepPose T m ss ts p a) ∉ st.visited) :
    dist T m ss ts start (stepPose T m ss ts p a) =
      dist T m ss ts start p + 1 := by
  have hpmem : p ∈ st.que := by
    rcases List.get?_eq_some.mp hfront with ⟨hq, hg2⟩
    rw [← hg2]
    exact List.get_mem _ _ _
  have hrp : ReachablePose T m ss ts start p := hInv.hreach p hpmem
  have hrc : ReachablePose T m ss ts start (stepPose T m ss ts p a) :=
    step_reachable T m ss ts start p a ha hrp
  have hle : dist T m ss ts start (stepPose T m ss ts p a) ≤
      dist T m ss ts start p + 1 := dist_step_le T m ss ts start p a ha hrp
  have hge : dist T m ss ts start p + 1 ≤
      dist T m ss ts start (stepPose T m ss ts p a) := by
    by_contra hcon
    push_neg at hcon
    have hlep : dist T m ss ts start (stepPose T m ss ts p a) ≤
        dist T m ss ts start p := by omega
    cases hdc : dist T m ss ts start (stepPose T m ss ts p a) with
    | zero =>
      have hcs : stepPose T m ss ts p a = start :=
        dist_eq_zero T m ss ts start _ hrc hdc
      have hsm : start ∈ st.que := by
        rcases List.get?_eq_some.mp hInv.hhead with ⟨h0, hget⟩
        rw [← hget]
        exact List.get_mem _ _ _
      have : poseKey (stepPose T m ss ts p a) ∈ st.visited := by
        rw [hInv.hsync, hcs]
        exact List.mem_map_of_mem poseKey hsm
      exact hfresh this
    | succ k =>
      rcases dist_decomp T m ss ts start _ k hrc hdc with ⟨y, b, hb3, hry, hdy, hstep⟩
      have hylt : dist T m ss ts start y < dist T m ss ts start p := by omega
      have hytake : y ∈ st.que.take st.queIx :=
        covering T m ss ts start g hinj st hInv p hfront k y hry hdy
          (by rw [hdy]; omega)
      have hkey : poseKey (stepPose T m ss ts y b) ∈ st.visited :=
        hInv.hexp y hytake b hb3
      rw [hstep] at hkey
      exact hfresh hkey
  omega

/-- Processing one action of the current front preserves the invariant;
the front pose stays at the dequeue index, the visited list only grows,
and afterwards the key of this successor is visited. -/
theorem push_one (T : Trig) (m : GridMap) (ss ts : ℚ) (start : Pose)
    (g : ℤ × ℤ) (hinj : KeyInj T m ss ts start)
    (st st1 : SearchState) (p : Pose) (a : ℕ) (ha : a < 3)
    (hInv : Inv T m ss ts start g st)
    (hfront : st.que.get? st.queIx = some p)
    (hgoal : atGoal p g = false)
    (hok : expandActions T m ss ts p [a] st = .ok st1) :
    Inv T m ss ts start g st1 ∧ st1.queIx = st.queIx ∧
    st1.que.get? st1.queIx = some p ∧
    (∀ k ∈ st.visited, k ∈ st1.visited) ∧
    poseKey (stepPose T m ss ts p a) ∈ st1.visited := by
  have hqlt : st.queIx < st.que.length := (List.get?_eq_some.mp hfront).1
  simp only [expandActions] at hok
  by_cases hmem : poseKey (stepPose T m ss ts p a) ∈ st.visited
  · rw [if_pos hmem] at hok
    cases hok
    exact ⟨hInv, rfl, hfront, fun k hk => hk, hmem⟩
  · rw [if_neg hmem] at hok
    by_cases hcap :
        (st.visited ++ [poseKey (stepPose T m ss ts p a)]).length < CAP
    · rw [if_pos hcap] at hok
      cases hok
      have hpmem : p ∈ st.que := by
        rcases List.get?_eq_some.mp hfront with ⟨hq, hg2⟩
        rw [← hg2]
        exact List.get_mem _ _ _
      have hrp : ReachablePose T m ss ts start p := hInv.hreach p hpmem
      have hdc : dist T m ss ts start (stepPose T m ss ts p a) =
          dist T m ss ts start p + 1 :=
        dist_fresh_child T m ss ts start g hinj st hInv p a ha hfront hmem
      have hdp : dist T m ss ts start p ≤ st.queIx := by
        rcases List.get?_eq_some.mp hfront with ⟨hq, hg2⟩
        have hx := hInv.hdix st.queIx hq
        rw [hg2] at hx
        exact hx
      have hkeyfresh : poseKey (stepPose T m ss ts p a) ∉
          st.que.map poseKey := by
        rw [← hInv.hsync]
        exact hmem
      refine ⟨⟨?_, ?_, ?_, ?_, ?_, ?_, ?_, ?_, ?_, ?_, ?_, ?_⟩, rfl, ?_, ?_, ?_⟩
      · show st.queIx ≤ (st.que ++ [stepPose T m ss ts p a]).length
        rw [List.length_append]
        simp only [List.length_singleton]
        omega
      · show st.visited ++ [poseKey (stepPose T m ss ts p a)] =
          (st.que ++ [stepPose T m ss ts p a]).map poseKey
        rw [List.map_append, hInv.hsync]
        rfl
      · show ((st.que ++ [stepPose T m ss ts p a]).map poseKey).Nodup
        rw [List.map_append]
        exact List.Nodup.append hInv.hnd (List.nodup_singleton _)
          (by simpa using hkeyfresh)
      · intro q hq
        rcases List.mem_append.mp hq with h1 | h1
        · exact hInv.hreach q h1
        · rw [List.mem_singleton.mp h1]
          exact step_reachable T m ss ts start p a ha hrp
      · show (st.par ++ [(stepPose T m ss ts p a, p, a)]).map (fun e => e.1) =
          (st.que ++ [stepPose T m ss ts p a]).drop 1
        rw [List.map_append, hInv.hpar1,
          List.drop_append_of_le_length (by omega)]
        rfl
      · intro e he
        rcases List.mem_append.mp he with h1 | h1
        · rcases hInv.hpar2 e h1 with ⟨e1, e2, e3, e4⟩
          exact ⟨e1, e2, List.mem_append_left _ e3, e4⟩
        · rw [List.mem_singleton.mp h1]
          exact ⟨ha, rfl, List.mem_append_left _ hpmem, hdc⟩
      · intro i j hi hj hij
        rw [List.length_append, List.length_singleton] at hi hj
        by_cases hjlen : j < st.que.length
        · have hilen : i < st.que.length := by omega
          rw [List.get_append i hilen, List.get_append j hjlen]
          exact hInv.hsorted i j hilen hjlen hij
        · have hjeq : j = st.que.length := by omega
          subst hjeq
          rw [get_concat_len]
          by_cases hilen : i < st.que.length
          · rw [List.get_append i hilen]
            have hz := hInv.hbound (st.que.get ⟨i, hilen⟩)
              (List.get_mem _ _ _) p hfront
            omega
          · have hieq : i = st.que.length := by omega
            subst hieq
            rw [get_concat_len]
      · intro z hz pf hpf
        rw [List.get?_append hqlt, hfront] at hpf
        have hpfp : pf = p := (Option.some.inj hpf).symm
        subst hpfp
        rcases List.mem_append.mp hz with h1 | h1
        · exact hInv.hbound z h1 pf hfront
        · rw [List.mem_singleton.mp h1]
          omega
      · intro q hq b hb
        dsimp only at hq
        rw [List.take_append_of_le_length (le_of_lt hqlt)] at hq
        exact List.mem_append_left _ (hInv.hexp q hq b hb)
      · intro q hq
        dsimp only at hq
        rw [List.take_append_of_le_length (le_of_lt hqlt)] at hq
        exact hInv.hngoal q hq
      · intro i hi
        rw [List.length_append, List.length_singleton] at hi
        by_cases hilen : i < st.que.length
        · rw [List.get_append i hilen]
          exact hInv.hdix i hilen
        · have hieq : i = st.que.length := by omega
          subst hieq
          rw [get_concat_len]
          omega
      · show (st.que ++ [stepPose T m ss ts p a]).get? 0 = some start
        rw [List.get?_append (by omega)]
        exact hInv.hhead
      · show (st.que ++ [stepPose T m ss ts p a]).get? st.queIx = some p
        rw [List.get?_append hqlt]
        exact hfront
      · intro k hk
        exact List.mem_append_left _ hk
      · exact List.mem_append_right _ (List.mem_singleton_self _)
    · rw [if_neg hcap] at hok
      cases hok

/-- Expanding a list of actions processes them one at a time. -/
theorem expandActions_cons (T : Trig) (m : GridMap) (ss ts : ℚ) (p : Pose)
    (a : ℕ) (rest : List ℕ) (st : SearchState) :
    expandActions T m ss ts p (a :: rest) st =
      match expandActions T m ss ts p [a] st with
      | .ok st2 => expandActions T m ss ts p rest st2
      | .error e => .error e := by
  simp only [expandActions]
  by_cases hmem : poseKey (stepPose T m ss ts p a) ∈ st.visited
  · rw [if_pos hmem, if_pos hmem]
  · rw [if_neg hmem, if_neg hmem]
    by_cases hcap :
        (st.visited ++ [poseKey (stepPose T m ss ts p a)]).length < CAP
    · rw [if_pos hcap, if_pos hcap]
    · rw [if_neg hcap, if_neg hcap]

/-- Processing the three actions of the current front preserves the
invariant, keeps the front pose at the dequeue index, and leaves all
three successor keys visited. -/
theorem push_three (T : Trig) (m : GridMap) (ss ts : ℚ) (start : Pose)
    (g : ℤ × ℤ) (hinj : KeyInj T m ss ts start)
    (st st1 : SearchState) (p : Pose)
    (hInv : Inv T m ss ts start g st)
    (hfront : st.que.get? st.queIx = some p)
    (hgoal : atGoal p g = false)
    (hok : expandActions T m ss ts p [0, 1, 2] st = .ok st1) :
    Inv T m ss ts start g st1 ∧ st1.queIx = st.queIx ∧
    st1.que.get? st1.queIx = some p ∧
    (∀ a, a < 3 → poseKey (stepPose T m ss ts p a) ∈ st1.visited) := by
  rw [expandActions_cons T m ss ts p 0 [1, 2] st] at hok
  cases h0 : expandActions T m ss ts p [0] st with
  | error e => rw [h0] at hok; cases hok
  | ok sa =>
    rw [h0] at hok
    dsimp only at hok
    rcases push_one T m ss ts start g hinj st sa p 0 (by omega) hInv hfront
      hgoal h0 with ⟨hInva, _, hfronta, hmona, hkeya⟩
    rw [expandActions_cons T m ss ts p 1 [2] sa] at hok
    cases h1 : expandActions T m ss ts p [1] sa with
    | error e => rw [h1] at hok; cases hok
    | ok sb =>
      rw [h1] at hok
      dsimp only at hok
      rcases push_one T m ss ts start g hinj sa sb p 1 (by omega) hInva hfronta
        hgoal h1 with ⟨hInvb, _, hfrontb, hmonb, hkeyb⟩
      rcases push_one T m ss ts start g hinj sb st1 p 2 (by omega) hInvb hfrontb
        hgoal hok with ⟨hInvc, hixc, hfrontc, hmonc, hkeyc⟩
      refine ⟨hInvc, ?_, hfrontc, ?_⟩
      · rw [hixc]
        rcases push_one T m ss ts start g hinj sa sb p 1 (by omega) hInva
          hfronta hgoal h1 with ⟨_, hixb, _, _, _⟩
        rcases push_one T m ss ts start g hinj st sa p 0 (by omega) hInv
          hfront hgoal h0 with ⟨_, hixa, _, _, _⟩
        rw [hixb, hixa]
      · intro a ha
        interval_cases a
        · exact hmonc _ (hmonb _ hkeya)
        · exact hmonc _ hkeyb
        · exact hkeyc

/-- Advancing the dequeue index past a fully expanded non-goal front
preserves the invariant. -/
theorem incr_inv (T : Trig) (m : GridMap) (ss ts : ℚ) (start : Pose)
    (g : ℤ × ℤ) (st : SearchState) (p : Pose)
    (hInv : Inv T m ss ts start g st)
    (hfront : st.que.get? st.queIx = some p)
    (hgoal : atGoal p g = false)
    (hexp3 : ∀ a, a < 3 → poseKey (stepPose T m ss ts p a) ∈ st.visited) :
    Inv T m ss ts start g { st with queIx := st.queIx + 1 } := by
  have hqlt : st.queIx < st.que.length := (List.get?_eq_some.mp hfront).1
  have htake : st.que.take (st.queIx + 1) = st.que.take st.queIx ++ [p] := by
    rw [List.take_succ, ← List.get?_eq_getElem?, hfront]
    rfl
  refine ⟨by dsimp only; omega, hInv.hsync, hInv.hnd, hInv.hreach, hInv.hpar1,
    hInv.hpar2, hInv.hsorted, ?_, ?_, ?_, hInv.hdix, hInv.hhead⟩
  · intro z hz pf2 hpf2
    dsimp only at hpf2 ⊢
    have h1 := hInv.hbound z hz p hfront
    rcases List.get?_eq_some.mp hpf2 with ⟨hq2, hg2⟩
    have hs := hInv.hsorted st.queIx (st.queIx + 1) hqlt hq2 (by omega)
    rcases List.get?_eq_some.mp hfront with ⟨hq1, hg1⟩
    rw [hg1, hg2] at hs
    omega
  · intro q hq a ha
    dsimp only at hq ⊢
    rw [htake] at hq
    rcases List.mem_append.mp hq with h1 | h1
    · exact hInv.hexp q h1 a ha
    · rw [List.mem_singleton.mp h1]
      exact hexp3 a ha
  · intro q hq
    dsimp only at hq
    rw [htake] at hq
    rcases List.mem_append.mp hq with h1 | h1
    · exact hInv.hngoal q h1
    · rw [List.mem_singleton.mp h1]
      exact hgoal

/-- Main loop lemma: from an invariant state with enough fuel, a `found`
outcome yields an invariant state whose front is the returned goal pose,
and a `noGoal` outcome yields an invariant state whose queue has been
fully processed. -/
theorem bfsLoop_inv (T : Trig) (m : GridMap) (ss ts : ℚ) (start : Pose)
    (g : ℤ × ℤ) (hinj : KeyInj T m ss ts start) :
    ∀ (fuel : ℕ) (st : SearchState),
      Inv T m ss ts start g st →
      st.visited.length ≤ CAP →
      (st.que.length - st.queIx) + 2 * (CAP - st.visited.length) < fuel →
      (∀ p stf, bfsLoop T m ss ts g fuel st = .found p stf →
        Inv T m ss ts start g stf ∧ stf.que.get? stf.queIx = some p ∧
        atGoal p g = true) ∧
      (∀ stf, bfsLoop T m ss ts g fuel st = .noGoal stf →
        Inv T m ss ts start g stf ∧ stf.queIx = stf.que.length) := by
  intro fuel
  induction fuel with
  | zero => intro st _ _ hm; omega
  | succ fuel ih =>
    intro st hInv hcap hm
    rw [bfsLoop]
    cases hq : st.que.get? st.queIx with
    | none =>
      dsimp only
      refine ⟨(by intro p stf hf; cases hf), ?_⟩
      intro stf hf
      cases hf
      have hge : st.que.length ≤ st.queIx := List.get?_eq_none.mp hq
      have hle := hInv.hix
      exact ⟨hInv, by omega⟩
    | some p =>
      dsimp only
      by_cases hg : atGoal p g = true
      · rw [if_pos hg]
        refine ⟨?_, by intro stf hf; cases hf⟩
        intro p2 stf hf
        cases hf
        exact ⟨hInv, hq, hg⟩
      · rw [if_neg hg]
        have hg' : atGoal p g = false := Bool.eq_false_iff.mpr hg
        cases hex : expandActions T m ss ts p [0, 1, 2] st with
        | error e =>
          exact ⟨(by intro p2 stf hf; cases hf), by intro stf hf; cases hf⟩
        | ok st1 =>
          rcases push_three T m ss ts start g hinj st st1 p hInv hq hg' hex
            with ⟨hInv1, hix1, hfront1, hexp3⟩
          rcases expandActions_ok T m ss ts p [0, 1, 2] st st1 hex with
            ⟨h1, h2, h3, h4, h5, h6⟩
          have hqlt : st.queIx < st.que.length := (List.get?_eq_some.mp hq).1
          exact ih { st1 with queIx := st1.queIx + 1 }
            (incr_inv T m ss ts start g st1 p hInv1 hfront1 hg' hexp3)
            (h5 hcap)
            (by
              show st1.que.length - (st1.queIx + 1) +
                2 * (CAP - st1.visited.length) < fuel
              have hc1 := h5 hcap
              omega)

/-- The invariant holds at the initial search state of find_shortest. -/
theorem inv_init (T : Trig) (m : GridMap) (ss ts : ℚ) (start : Pose)
    (g : ℤ × ℤ) :
    Inv T m ss ts start g
      { que := [start], queIx := 0, visited := [poseKey start], par := [] } := by
  refine ⟨Nat.zero_le _, rfl, List.nodup_singleton _, ?_, rfl, ?_, ?_, ?_, ?_, ?_, ?_, rfl⟩
  · intro p hp
    rw [List.mem_singleton.mp hp]
    exact start_reachable T m ss ts start
  · intro e he
    cases he
  · intro i j hi hj hij
    dsimp only [List.length_singleton] at hi hj
    have hi0 : i = 0 := by omega
    have hj0 : j = 0 := by omega
    subst hi0
    subst hj0
    exact Nat.le_refl _
  · intro z hz pf hpf
    rw [List.mem_singleton.mp hz]
    have hpfs : pf = start := by
      cases hpf
      rfl
    rw [hpfs]
    exact Nat.le_succ _
  · intro q hq
    cases hq
  · intro q hq
    cases hq
  · intro i hi
    dsimp only [List.length_singleton] at hi
    have hi0 : i = 0 := by omega
    subst hi0
    dsimp only [List.get]
    rw [dist_start]

/-- When the search stops at a goal pose, that pose is at minimal distance
among all reachable goal poses. -/
theorem found_minimal (T : Trig) (m : GridMap) (ss ts : ℚ) (start : Pose)
    (g : ℤ × ℤ) (hinj : KeyInj T m ss ts start) (st : SearchState)
    (hInv : Inv T m ss ts start g st) (p : Pose)
    (hfront : st.que.get? st.queIx = some p) :
    ∀ z, ReachablePose T m ss ts start z → atGoal z g = true →
      dist T m ss ts start p ≤ dist T m ss ts start z := by
  intro z hrz hgz
  by_contra hcon
  push_neg at hcon
  have hz : z ∈ st.que.take st.queIx :=
    covering T m ss ts start g hinj st hInv p hfront _ z hrz rfl hcon
  have hng := hInv.hngoal z hz
  rw [hgz] at hng
  cases hng

/-- When the queue has been exhausted, every reachable pose has been
enqueued. -/
theorem noGoal_reach_mem (T : Trig) (m : GridMap) (ss ts : ℚ) (start : Pose)
    (g : ℤ × ℤ) (hinj : KeyInj T m ss ts start) (st : SearchState)
    (hInv : Inv T m ss ts start g st) (hend : st.queIx = st.que.length) :
    ∀ (n : ℕ) (z : Pose), ReachablePose T m ss ts start z →
      dist T m ss ts start z = n → z ∈ st.que := by
  intro n
  induction n using Nat.strong_induction_on with
  | _ n ih =>
    intro z hrz hdz
    cases n with
    | zero =>
      have hzs : z = start := dist_eq_zero T m ss ts start z hrz hdz
      rcases List.get?_eq_some.mp hInv.hhead with ⟨h0, hget⟩
      rw [hzs, ← hget]
      exact List.get_mem st.que 0 h0
    | succ k =>
      rcases dist_decomp T m ss ts start z k hrz hdz with ⟨y, b, hb3, hry, hdy, hstep⟩
      have hym : y ∈ st.que := ih k (by omega) y hry hdy
      have hyt : y ∈ st.que.take st.queIx := by
        rw [hend, List.take_length]
        exact hym
      have hkey := hInv.hexp y hyt b hb3
      rw [hstep] at hkey
      rcases key_mem_que T m ss ts start g st hInv _ hkey with ⟨w, hwm, hwk⟩
      have hwz := hinj w z (hInv.hreach w hwm) hrz hwk
      rw [← hwz]
      exact hwm

/-- A fully processed queue refutes the existence of any sequence
reaching the goal. -/
theorem noGoal_no_path (T : Trig) (m : GridMap) (ss ts : ℚ) (start : Pose)
    (g : ℤ × ℤ) (hinj : KeyInj T m ss ts start) (st : SearchState)
    (hInv : Inv T m ss ts start g st) (hend : st.queIx = st.que.length)
    (hex : ∃ seq, ReachesGoal T m ss ts start g seq) : False := by
  rcases hex with ⟨seq, hgood, hgoal⟩
  have hrz : ReachablePose T m ss ts start (applyActions T m ss ts start seq) :=
    ⟨seq, hgood, rfl⟩
  have hzm := noGoal_reach_mem T m ss ts start g hinj st hInv hend _ _ hrz rfl
  have hzt : applyActions T m ss ts start seq ∈ st.que.take st.queIx := by
    rw [hend, List.take_length]
    exact hzm
  have hng := hInv.hngoal _ hzt
  rw [hgoal] at hng
  cases hng

/-- The queue always starts with the start pose. -/
theorem que_eq_cons (T : Trig) (m : GridMap) (ss ts : ℚ) (start : Pose)
    (g : ℤ × ℤ) (st : SearchState) (hInv : Inv T m ss ts start g st) :
    st.que = start :: st.que.tail := by
  have hh := hInv.hhead
  cases hq : st.que with
  | nil =>
    rw [hq] at hh
    cases hh
  | cons x t =>
    rw [hq] at hh
    have hx : x = start := by
      simpa using hh
    subst hx
    rfl

/-- The start pose has no parent record. -/
theorem lookup_start_none (T : Trig) (m : GridMap) (ss ts : ℚ) (start : Pose)
    (g : ℤ × ℤ) (st : SearchState) (hInv : Inv T m ss ts start g st) :
    lookupChild st.par start = none := by
  have hf : st.par.find? (fun e => decide (e.1 = start)) = none := by
    rw [List.find?_eq_none]
    intro e he
    simp only [decide_eq_true_eq]
    intro hes
    rcases hInv.hpar2 e he with ⟨_, _, _, hdist⟩
    rw [hes, dist_start] at hdist
    omega
  unfold lookupChild
  rw [hf]

/-- Backtracking from any enqueued pose with enough fuel reconstructs (in
reverse) a valid action sequence of length exactly the pose's distance. -/
theorem backtrack_spec (T : Trig) (m : GridMap) (ss ts : ℚ) (start : Pose)
    (g : ℤ × ℤ) (st : SearchState) (hInv : Inv T m ss ts start g st) :
    ∀ (n : ℕ) (z : Pose), z ∈ st.que → dist T m ss ts start z = n →
      ∀ fuel, n < fuel →
      (backtrack st.par fuel z).2.length = n ∧
      GoodSeq (backtrack st.par fuel z).2.reverse ∧
      applyActions T m ss ts start (backtrack st.par fuel z).2.reverse = z := by
  intro n
  induction n using Nat.strong_induction_on with
  | _ n ih =>
    intro z hz hdz fuel hfuel
    cases fuel with
    | zero => omega
    | succ f =>
      cases n with
      | zero =>
        have hzs : z = start := dist_eq_zero T m ss ts start z (hInv.hreach z hz) hdz
        rw [hzs]
        simp only [backtrack, lookup_start_none T m ss ts start g st hInv,
          List.reverse_nil]
        refine ⟨rfl, ?_, rfl⟩
        intro b hb
        cases hb
      | succ k =>
        have hzne : z ≠ start := by
          intro hzs
          rw [hzs, dist_start] at hdz
          cases hdz
        have hztail : z ∈ st.que.tail := by
          have hzc := hz
          rw [que_eq_cons T m ss ts start g st hInv] at hzc
          rcases List.mem_cons.mp hzc with h1 | h1
          · exact absurd h1 hzne
          · exact h1
        have hzmap : z ∈ st.par.map (fun e => e.1) := by
          rw [hInv.hpar1, List.drop_one]
          exact hztail
        rcases List.mem_map.mp hzmap with ⟨e, he, hez⟩
        rcases hfind : st.par.find? (fun e => decide (e.1 = z)) with _ | e2
        · exfalso
          exact (List.find?_eq_none.mp hfind e he) (decide_eq_true hez)
        · have he2mem : e2 ∈ st.par := List.mem_of_find?_eq_some hfind
          have hp2 := List.find?_some hfind
          have he2z : e2.1 = z := by simpa using hp2
          rcases hInv.hpar2 e2 he2mem with ⟨ha3, hstepz, hpmem, hdist⟩
          rw [he2z] at hstepz hdist
          have hdp : dist T m ss ts start e2.2.1 = k := by omega
          have hlk : lookupChild st.par z = some e2.2 := by
            unfold lookupChild
            rw [hfind]
          rcases ih k (by omega) e2.2.1 hpmem hdp f (by omega) with
            ⟨ihlen, ihgood, ihapp⟩
          simp only [backtrack, hlk]
          refine ⟨?_, ?_, ?_⟩
          · rw [List.length_cons, ihlen]
          · rw [List.reverse_cons]
            intro b hb
            rcases List.mem_append.mp hb with h1 | h1
            · exact ihgood b h1
            · rw [List.mem_singleton.mp h1]
              exact ha3
          · rw [List.reverse_cons, applyActions_append_one, ihapp, ← hstepz]

/-- Unfolding one action of an application. -/
theorem applyActions_cons (T : Trig) (m : GridMap) (ss ts : ℚ) (p : Pose)
    (a : ℕ) (seq : List ℕ) :
    applyActions T m ss ts p (a :: seq) =
      applyActions T m ss ts (stepPose T m ss ts p a) seq := rfl

/-- Repeated turn-left actions subtract the turn size each time as long as
the heading stays at or above -180. -/
theorem applyActions_replicate_left (T : Trig) (m : GridMap) (ss ts : ℚ) :
    ∀ (k : ℕ) (x y d : ℚ), 0 ≤ ts → -180 ≤ d - (k : ℚ) * ts →
      applyActions T m ss ts (x, y, d) (List.replicate k 0) =
        (x, y, d - (k : ℚ) * ts) := by
  intro k
  induction k with
  | zero =>
    intro x y d hts hw
    simp only [List.replicate, Nat.cast_zero, zero_mul, sub_zero]
    rfl
  | succ k ih =>
    intro x y d hts hw
    push_cast at hw
    rw [List.replicate_succ, applyActions_cons]
    have hkts : 0 ≤ (k : ℚ) * ts := mul_nonneg (Nat.cast_nonneg k) hts
    have hnw : ¬ (d - ts < -180) := by
      push_neg
      linarith
    have hstep : stepPose T m ss ts (x, y, d) 0 = (x, y, d - ts) := by
      show ((x, y, if d - ts < -180 then d - ts + 360 else d - ts) : Pose) =
        (x, y, d - ts)
      rw [if_neg hnw]
    rw [hstep, ih x y (d - ts) hts (by linarith)]
    have h3 : d - ts - (k : ℚ) * ts = d - ((k + 1 : ℕ) : ℚ) * ts := by
      push_cast
      ring
    rw [h3]

/-- A list of poses containing the start pose and closed under the three
actions contains every reachable pose. -/
theorem reach_subset (T : Trig) (m : GridMap) (ss ts : ℚ) (start : Pose)
    (S : List Pose) (hstart : start ∈ S)
    (hclosed : ∀ p ∈ S, ∀ a, a < 3 → stepPose T m ss ts p a ∈ S) :
    ∀ p, ReachablePose T m ss ts start p → p ∈ S := by
  have key : ∀ (seq : List ℕ) (s : Pose), s ∈ S → GoodSeq seq →
      applyActions T m ss ts s seq ∈ S := by
    intro seq
    induction seq with
    | nil => intro s hs _; exact hs
    | cons a rest ih =>
      intro s hs hg
      rw [applyActions_cons]
      exact ih (stepPose T m ss ts s a)
        (hclosed s hs a (hg a (List.mem_cons_self a rest)))
        (fun b hb => hg b (List.mem_cons_of_mem a hb))
  intro p hp
  rcases hp with ⟨seq, hgood, happ⟩
  rw [← happ]
  exact key seq start hstart hgood

unseal Rat.add Rat.mul Rat.sub Rat.inv in
/-- On the concrete 2-by-1 open-map instance the discretization key
separates the reachable poses. -/
theorem keyInj21 : KeyInj trigE mapOpen21 1 90 (1/2, 1/2, 0) := by
  intro p q hp hq hk
  have hclosed : ∀ p ∈ S21, ∀ a, a < 3 →
      stepPose trigE mapOpen21 1 90 p a ∈ S21 := by decide
  have hps : p ∈ S21 :=
    reach_subset trigE mapOpen21 1 90 (1/2, 1/2, 0) S21 (by decide) hclosed p hp
  have hqs : q ∈ S21 :=
    reach_subset trigE mapOpen21 1 90 (1/2, 1/2, 0) S21 (by decide) hclosed q hq
  have hinj : ∀ x ∈ S21, ∀ y ∈ S21, poseKey x = poseKey y → x = y := by decide
  exact hinj p hps q hqs hk

/-- Claim C1 (amended): on a finite obstacle-free map, when the
discretization key separates the reachable poses and some action sequence
reaches the goal cell, any successful return of find_shortest carries an
action sequence that reaches the goal under the defined discretization and
whose length is minimal among all goal-reaching sequences (minimality in
number of discrete actions, i.e. expansion steps of the FIFO frontier);
the returned sequence is empty exactly when the start pose already lies in
the goal cell. -/
theorem C1_amended (T : Trig) (m : GridMap) (start : Pose) (g : ℤ × ℤ)
    (ss ts : ℚ) (acts : List ℕ) (path : List Pose) (nvis : ℕ)
    (hfree : ∀ i j, m.cell i j ≠ WALL)
    (hinj : KeyInj T m ss ts start)
    (hreach : ∃ seq, ReachesGoal T m ss ts start g seq)
    (hok : find_shortest T m start g ss ts = .ok (acts, path, nvis)) :
    ReachesGoal T m ss ts start g acts ∧
    (∀ seq, ReachesGoal T m ss ts start g seq → acts.length ≤ seq.length) ∧
    (acts = [] ↔ atGoal start g = true) := by
  rcases bfsLoop_inv T m ss ts start g hinj FUEL
    { que := [start], queIx := 0, visited := [poseKey start], par := [] }
    (inv_init T m ss ts start g) (by norm_num [CAP])
    (by norm_num [CAP, FUEL]) with ⟨hfound, hnogoal⟩
  cases hb : bfsLoop T m ss ts g FUEL
      { que := [start], queIx := 0, visited := [poseKey start], par := [] } with
  | found p stf =>
    have hfs : find_shortest T m start g ss ts =
        .ok ((backtrack stf.par (stf.par.length + 1) p).2.reverse,
             (backtrack stf.par (stf.par.length + 1) p).1.reverse,
             stf.visited.length) := by
      unfold find_shortest
      dsimp only
      rw [hb]
    rw [hfs] at hok
    have h2 := Except.ok.inj hok
    have hacts : acts = (backtrack stf.par (stf.par.length + 1) p).2.reverse :=
      congrArg (fun r => r.1) h2.symm
    rcases hfound p stf hb with ⟨hInvf, hfrontf, hgoalp⟩
    have hqlt : stf.queIx < stf.que.length := (List.get?_eq_some.mp hfrontf).1
    have hpmem : p ∈ stf.que := by
      rcases List.get?_eq_some.mp hfrontf with ⟨hq, hg2⟩
      rw [← hg2]
      exact List.get_mem _ _ _
    have hdp : dist T m ss ts start p ≤ stf.queIx := by
      rcases List.get?_eq_some.mp hfrontf with ⟨hq, hg2⟩
      have hx := hInvf.hdix stf.queIx hq
      rw [hg2] at hx
      exact hx
    have hlen : stf.que.length = stf.par.length + 1 := by
      have h1 := congrArg List.length hInvf.hpar1
      rw [List.length_map, List.length_drop] at h1
      omega
    rcases backtrack_spec T m ss ts start g stf hInvf (dist T m ss ts start p)
      p hpmem rfl (stf.par.length + 1) (by omega) with ⟨hblen, hbgood, hbapp⟩
    have hlacts : acts.length = dist T m ss ts start p := by
      rw [hacts, List.length_reverse, hblen]
    refine ⟨⟨?_, ?_⟩, ?_, ?_⟩
    · rw [hacts]
      exact hbgood
    · rw [hacts, hbapp]
      exact hgoalp
    · intro seq hseq
      rcases hseq with ⟨hgseq, hgoalseq⟩
      have hrz : ReachablePose T m ss ts start
          (applyActions T m ss ts start seq) := ⟨seq, hgseq, rfl⟩
      have hmin := found_minimal T m ss ts start g hinj stf hInvf p hfrontf
        _ hrz hgoalseq
      have hdle : dist T m ss ts start (applyActions T m ss ts start seq) ≤
          seq.length := dist_le T m ss ts start _ _ ⟨seq, hgseq, rfl, rfl⟩
      omega
    · constructor
      · intro hnil
        rw [hnil] at hlacts
        have hd0 : dist T m ss ts start p = 0 := hlacts.symm
        have hps : p = start :=
          dist_eq_zero T m ss ts start p (hInvf.hreach p hpmem) hd0
        rw [← hps]
        exact hgoalp
      · intro hgs
        have hmin := found_minimal T m ss ts start g hinj stf hInvf p hfrontf
          start (start_reachable T m ss ts start) hgs
        rw [dist_start] at hmin
        have h0 : acts.length = 0 := by omega
        exact List.length_eq_zero.mp h0
  | noGoal stf =>
    rcases hnogoal stf hb with ⟨hInvf, hend⟩
    exact (noGoal_no_path T m ss ts start g hinj stf hInvf hend hreach).elim
  | fail e =>
    have hfs : find_shortest T m start g ss ts = .error e := by
      unfold find_shortest
      dsimp only
      rw [hb]
    rw [hfs] at hok
    cases hok

unseal Rat.add Rat.mul Rat.sub Rat.inv in
/-- Counterexample to claim C1 as stated.  On the 1-by-2 open map with
turn size 1/10 the goal cell (0,0) is reachable from (1/2, 3/2, 0) (turn
left 900 times, then move forward), yet find_shortest returns the empty
action sequence after visiting a single key: the discretization key
collapses the turned poses onto the start key, so the search exhausts its
frontier without reaching the goal.  On the 2-by-1 open map with the start
pose already in the goal cell the goal is likewise reachable (by the empty
sequence) and find_shortest succeeds but returns an empty — not a
non-empty — sequence.  Hence the claim's unconditional guarantee of a
non-empty, goal-reaching, minimal returned sequence fails. -/
theorem C1_counterexample :
    ¬ (∀ (T : Trig) (m : GridMap) (start : Pose) (g : ℤ × ℤ) (ss ts : ℚ),
        (∀ i j, m.cell i j ≠ WALL) →
        (∃ seq, ReachesGoal T m ss ts start g seq) →
        ∃ acts path nvis,
          find_shortest T m start g ss ts = .ok (acts, path, nvis) ∧
          acts ≠ [] ∧ ReachesGoal T m ss ts start g acts ∧
          ∀ seq, ReachesGoal T m ss ts start g seq →
            acts.length ≤ seq.length) ∧
    find_shortest trigE mapOpen12 (1/2, 3/2, 0) (0, 0) 1 (1/10) =
      .ok ([], [], 1) ∧
    ReachesGoal trigE mapOpen12 1 (1/10) (1/2, 3/2, 0) (0, 0)
      (List.replicate 900 0 ++ [2]) ∧
    atGoal (1/2, 3/2, 0) (0, 0) = false ∧
    find_shortest trigE mapOpen21 (1/2, 1/2, 0) (0, 0) 1 90 =
      .ok ([], [], 1) ∧
    ReachesGoal trigE mapOpen21 1 90 (1/2, 1/2, 0) (0, 0) [] := by
  have hrg : ReachesGoal trigE mapOpen12 1 (1/10) (1/2, 3/2, 0) (0, 0)
      (List.replicate 900 0 ++ [2]) := by
    constructor
    · intro a ha
      rcases List.mem_append.mp ha with h | h
      · rw [List.eq_of_mem_replicate h]
        omega
      · rw [List.mem_singleton.mp h]
        omega
    · rw [applyActions_append_one]
      have h900 : applyActions trigE mapOpen12 1 (1/10) (1/2, 3/2, 0)
          (List.replicate 900 0) = (1/2, 3/2, -90) := by
        rw [applyActions_replicate_left trigE mapOpen12 1 (1/10) 900
          (1/2) (3/2) 0 (by norm_num) (by norm_num)]
        norm_num
      rw [h900]
      decide
  refine ⟨?_, by decide, hrg, by decide, by decide,
    ⟨(by intro a ha; cases ha), by decide⟩⟩
  intro hcl
  rcases hcl trigE mapOpen12 (1/2, 3/2, 0) (0, 0) 1 (1/10) (by intro i j; simp [mapOpen12, WALL])
    ⟨List.replicate 900 0 ++ [2], hrg⟩ with
    ⟨acts, path, nvis, hok, hne, _, _⟩
  have heval : find_shortest trigE mapOpen12 (1/2, 3/2, 0) (0, 0) 1 (1/10) =
      .ok ([], [], 1) := by decide
  rw [heval] at hok
  have h2 := Except.ok.inj hok
  exact hne (congrArg (fun r => r.1) h2).symm

unseal Rat.add Rat.mul Rat.sub Rat.inv in
/-- Witness for C1 on a concrete instance: on the 2-by-1 open map from
(1/2, 1/2, 0) to goal cell (1,0), find_shortest returns the single forward
action, which reaches the goal, is of minimal length, and is non-empty
because the start is not in the goal cell. -/
theorem C1_witness :
    ReachesGoal trigE mapOpen21 1 90 (1/2, 1/2, 0) (1, 0) [2] ∧
    (∀ seq, ReachesGoal trigE mapOpen21 1 90 (1/2, 1/2, 0) (1, 0) seq →
      ([2] : List ℕ).length ≤ seq.length) ∧
    (([2] : List ℕ) = [] ↔ atGoal (1/2, 1/2, 0) (1, 0) = true) :=
  C1_amended trigE mapOpen21 (1/2, 1/2, 0) (1, 0) 1 90 [2] [(3/2, 1/2, 0)] 6
    (by intro i j; simp [mapOpen21, WALL]) keyInj21
    ⟨[2], (by intro a ha; rw [List.mem_singleton.mp ha]; omega), by decide⟩
    (by decide)

end PyDreamer

